import Mathlib

/-!
# Verification of the Browser Crush context/indexing/tool subsystem

Shallow embedding of the core of the `crush` in-browser coding assistant:
the virtual file system and source index (`src/unnamed/part_002`), the
change tracker (`src/web/js/core/change-tracker.js`), the context manager
(`src/web/js/core/utils.js`), and the tool layer
(`src/web/js/tools/base-tool.js`, `src/web/js/tools/file-tools.js`).

Modelling conventions:
* JS strings are Lean `String`s; JS numbers are modelled as exact rationals
  (`Rat`).  Every numeric quantity compared in a theorem below is a sum or
  product of small decimal constants whose floating-point rounding cannot
  cross the compared threshold, so the rational model is faithful for the
  stated properties.
* JS `Map`s are association lists in insertion order: `Map.set` replaces the
  value in place (keeping the original position) or appends; `Map.delete`
  removes the entry; iteration is list order.  JS `Set`s of strings are
  duplicate-free lists in insertion order.
* JS array `push`/`pop` operate at the array end; undo/redo stacks below are
  stored top-first (Lean list head = JS array end), which is noted at each
  definition.
* `Date` timestamps and random ids are omitted: no claim observes them.
* Symbol extraction (`FileIndex.extractSymbols`) dispatches on the file
  extension to one of six per-language regex heuristics.  The dispatch is
  carried as an explicit function parameter `extract : String → String →
  List SymbolInfo` (path, content ↦ symbols); the `default` branch
  (`extractGenericSymbols`, the one every concrete input below dispatches
  to, since no input path has a js/jsx/ts/tsx/py/java/cpp/c/go extension)
  is embedded concretely as `genericExtract`.  General theorems quantify
  over the parameter and hence hold for the source's dispatch.
-/

/-! ## JS string primitives -/

/-- JS `\s` whitespace class, restricted to the ASCII range that occurs in
the modelled data. -/
def jsSpace (c : Char) : Bool :=
  c = ' ' ∨ c = '\t' ∨ c = '\n' ∨ c = '\r' ∨ c = '\x0b' ∨ c = '\x0c'

/-- JS `\w` word-character class. -/
def jsWord (c : Char) : Bool :=
  (('a' ≤ c ∧ c ≤ 'z') ∨ ('A' ≤ c ∧ c ≤ 'Z') ∨ ('0' ≤ c ∧ c ≤ '9') ∨ c = '_')

/-- `Utils.normalizePath` (utils.js:108-110): replace backslashes by `/`,
then collapse runs of `/` into a single `/` (regexes `/\\/g`, `/\/+/g`). -/
def collapseSlashes : List Char → List Char
  | [] => []
  | [c] => [c]
  | a :: b :: rest =>
    if a = '/' ∧ b = '/' then collapseSlashes (b :: rest)
    else a :: collapseSlashes (b :: rest)

def normalizePath (p : String) : String :=
  String.mk (collapseSlashes (p.data.map fun c => if c = '\\' then '/' else c))

/-- Boolean prefix test on character lists (structural, so that every
definition below evaluates by kernel reduction; the core string-splitting
functions use well-founded recursion and do not). -/
def isPrefixList : List Char → List Char → Bool
  | [], _ => true
  | _ :: _, [] => false
  | p :: ps, c :: cs => p = c ∧ isPrefixList ps cs

/-- Index of the leftmost occurrence of `pat` (nonempty) in a character
list. -/
def findMatchIdx (pat : List Char) : List Char → Option Nat
  | [] => none
  | c :: cs =>
    if isPrefixList pat (c :: cs) then some 0
    else (findMatchIdx pat cs).map fun i => i + 1

/-- Split at each leftmost, non-overlapping occurrence of `pat`; the fuel
argument (always instantiated with more than the list length) makes the
recursion structural. -/
def splitOnFuel (pat : List Char) : Nat → List Char → List (List Char)
  | 0, s => [s]
  | fuel + 1, s =>
    match findMatchIdx pat s with
    | none => [s]
    | some i => s.take i :: splitOnFuel pat fuel (s.drop (i + pat.length))

/-- JS `String.prototype.split(separator)` for a nonempty separator (every
use below guards the empty separator as the source does): split at each
leftmost non-overlapping occurrence. -/
def splitOnStr (s sep : String) : List String :=
  if sep = "" then [s]
  else (splitOnFuel sep.data (s.data.length + 1) s.data).map String.mk

/-- JS `Array.prototype.join(sep)`. -/
def joinWith (sep : String) : List String → String
  | [] => ""
  | [x] => x
  | x :: xs => x ++ sep ++ joinWith sep xs

/-- JS `String.prototype.toLowerCase()` on the ASCII data occurring here. -/
def lowerStr (s : String) : String :=
  String.mk (s.data.map Char.toLower)

/-- JS `String.prototype.substring(0, n)` (the modelled data is ASCII, so
UTF-16 units coincide with characters). -/
def strTake (s : String) (n : Nat) : String :=
  String.mk (s.data.take n)

/-- JS `String.prototype.startsWith`. -/
def strStartsWith (s pat : String) : Bool :=
  isPrefixList pat.data s.data

/-- Split a character list at every character satisfying `p` (JS
`split(/\s+/)` keeps empty fragments only where this does, up to empty
fragments that every caller filters away by token length). -/
def splitByPred (p : Char → Bool) : List Char → List Char → List (List Char)
  | [], acc => [acc.reverse]
  | c :: cs, acc =>
    if p c then acc.reverse :: splitByPred p cs []
    else splitByPred p cs (c :: acc)

/-- JS `String.prototype.includes` for a nonempty needle; for the empty
needle JS returns `true`. -/
def jsIncludes (s pat : String) : Bool :=
  pat = "" ∨ 2 ≤ (splitOnStr s pat).length

/-- Number of non-overlapping, leftmost occurrences of a nonempty pattern:
the count produced by `str.match(new RegExp(escaped, 'g'))` in
`EditFileTool` and `FileIndex.calculateRelevanceScore` (patterns there are
regex-escaped or metacharacter-free, hence literal). -/
def countOccurrences (s pat : String) : Nat :=
  (splitOnStr s pat).length - 1

/-- JS `String.prototype.replace(stringPattern, r)`: replace the first
occurrence only.  (`$`-substitution patterns in the replacement are not
modelled; no input below contains `$`.) -/
def replaceFirst (s pat r : String) : String :=
  match splitOnStr s pat with
  | [] => s
  | [_] => s
  | p :: rest => p ++ r ++ joinWith pat rest

/-- JS `String.prototype.replace(globalRegex, r)` with a literal escaped
pattern: replace every leftmost non-overlapping occurrence. -/
def jsReplaceAll (s pat r : String) : String :=
  if pat = "" then s else joinWith r (splitOnStr s pat)

/-- First index of `pat` in `s` (JS `indexOf`), for nonempty `pat`;
`none` for JS's `-1`. -/
def firstIndexOf (s pat : String) : Option Nat :=
  match splitOnStr s pat with
  | [] => none
  | [_] => none
  | p :: _ => some p.length

/-- `Utils.getFileExtension` (utils.js:78-80): `split('.').pop().toLowerCase()`. -/
def getFileExtension (filePath : String) : String :=
  lowerStr ((splitOnStr filePath ".").getLastD "")

/-- `Utils.getFileName` (utils.js:85-87): `split('/').pop()`. -/
def getFileName (filePath : String) : String :=
  (splitOnStr filePath "/").getLastD filePath

/-- `Utils.getDirectoryPath` (utils.js:92-96). -/
def getDirectoryPath (filePath : String) : String :=
  joinWith "/" ((splitOnStr filePath "/").dropLast)

/-! ## Insertion-ordered association lists (JS `Map`) and string sets -/

/-- `Map.set`: replace in place keeping the original position, else append. -/
def setEntry {β : Type} : List (String × β) → String → β → List (String × β)
  | [], k, v => [(k, v)]
  | (k', v') :: rest, k, v =>
    if k' = k then (k, v) :: rest else (k', v') :: setEntry rest k v

/-- `Map.get`. -/
def lookupEntry {β : Type} : List (String × β) → String → Option β
  | [], _ => none
  | (k', v') :: rest, k => if k' = k then some v' else lookupEntry rest k

/-- `Map.delete`. -/
def removeEntry {β : Type} : List (String × β) → String → List (String × β)
  | [], _ => []
  | (k', v') :: rest, k =>
    if k' = k then rest else (k', v') :: removeEntry rest k

/-- `Set.add` on a string set in insertion order. -/
def addToSet (s : List String) (x : String) : List String :=
  if x ∈ s then s else s ++ [x]

/-! ## Data model (`src/web/js/core/prompts.js`) -/

/-- `FileEntry` (prompts.js:184-194).  `lastModified`, `encoding` and `sha`
are omitted (no claim observes them).  Directory entries (JS `content =
null`) do not arise in any modelled operation, so `content` is a plain
string. -/
structure FileEntry where
  path : String
  content : String
  type : String
  size : Nat
deriving Repr, DecidableEq

/-- `LineInfo` (prompts.js:207-214). -/
structure LineInfo where
  lineNumber : Nat
  content : String
  tokens : List String
  indentation : Nat
deriving Repr, DecidableEq

/-- `SymbolInfo` (prompts.js:196-205). -/
structure SymbolInfo where
  name : String
  type : String
  filePath : String
  lineNumber : Nat
  column : Nat
  context : String
deriving Repr, DecidableEq

/-- `MatchedLine` (prompts.js:239-246). -/
structure MatchedLine where
  lineNumber : Nat
  content : String
  matchStart : Nat
  matchEnd : Nat
deriving Repr, DecidableEq

/-- `FileSearchResult` (prompts.js:229-237); `content` is `Option` because
`FileIndex.searchContent` constructs results with `content = null`. -/
structure FileSearchResult where
  filePath : String
  content : Option String
  score : Rat
  matchedLines : List MatchedLine
  reason : String
deriving Repr, DecidableEq

/-- `SearchOptions` (prompts.js:217-227); only the fields read by the
modelled code paths. -/
structure SearchOptions where
  includeFilenames : Bool := true
  includeContent : Bool := true
  caseSensitive : Bool := false
  maxResults : Nat := 50
deriving Repr, DecidableEq

/-- `RelevantFile` (prompts.js:258-266). -/
structure RelevantFile where
  path : String
  content : String
  relevanceScore : Rat
  reason : String
  matchedLines : List MatchedLine
deriving Repr, DecidableEq

/-- `UserIntent` (prompts.js:249-256). -/
structure UserIntent where
  type : String := "unknown"
  targetFiles : List String := []
  keywords : List String := []
  operation : String := "read"
deriving Repr, DecidableEq

/-- `Change` (prompts.js:288-301); `id` and `timestamp` omitted. -/
structure Change where
  type : String
  filePath : String
  oldContent : Option String
  newContent : Option String
deriving Repr, DecidableEq

/-! ## `FileIndex` (src/unnamed/part_002:6-461) -/

/-- The stop-word set of `FileIndex.isStopWord` (part_002:82-89); the JS
literal lists some words twice, which a `Set` deduplicates. -/
def indexStopWords : List String :=
  ["the", "and", "or", "but", "in", "on", "at", "to", "for", "of", "with", "by",
   "from", "up", "about", "into", "through", "during", "before", "after",
   "above", "below", "between", "among"]

def isStopWord (w : String) : Bool := w ∈ indexStopWords

/-- `FileIndex.tokenize` (part_002:71-77): lowercase, replace `[^\w\s]` by a
space, split on whitespace runs, keep tokens of length > 2 that are not stop
words.  (Splitting at every whitespace character instead of at runs only
introduces extra empty fragments, which the length filter removes.) -/
def indexTokenize (text : String) : List String :=
  ((splitByPred (fun c => jsSpace c)
      (text.data.map fun c =>
        let c' := c.toLower
        if jsWord c' ∨ jsSpace c' then c' else ' ') []).map String.mk)
    |>.filter fun t => 2 < t.length ∧ ¬ isStopWord t

/-- `FileIndex.getIndentation` (part_002:94-97): length of the leading
whitespace run. -/
def getIndentation (line : String) : Nat :=
  (line.data.takeWhile fun c => jsSpace c).length

/-- The index state owned by `FileIndex` (part_002:7-12).  `fileHashes`
(change-detection hashes, read only by `needsReindexing`) is omitted: no
claim observes it. -/
structure FileIndexSt where
  tokenIndex : List (String × List String)
  lineIndex : List (String × List LineInfo)
  symbolIndex : List (String × List SymbolInfo)
deriving Repr, DecidableEq

def FileIndexSt.empty : FileIndexSt := ⟨[], [], []⟩

/-- One `tokenIndex` insertion from part_002:51-56: ensure a set exists for
the token and add the file path to it. -/
def addTokenPath (ti : List (String × List String)) (token filePath : String) :
    List (String × List String) :=
  match lookupEntry ti token with
  | some paths => setEntry ti token (addToSet paths filePath)
  | none => ti ++ [(token, [filePath])]

/-- `symbolIndex` insertion from `extractSymbols` (part_002:131-136): ensure
a list exists for the symbol name and push the symbol. -/
def addSymbol (si : List (String × List SymbolInfo)) (s : SymbolInfo) :
    List (String × List SymbolInfo) :=
  match lookupEntry si s.name with
  | some syms => setEntry si s.name (syms ++ [s])
  | none => si ++ [(s.name, [s])]

def addSymbols (si : List (String × List SymbolInfo)) (syms : List SymbolInfo) :
    List (String × List SymbolInfo) :=
  syms.foldl addSymbol si

/-- JS `content.split('\n')` (keeps trailing empty fragments; `""` gives
`[""]`), as `String.splitOn` does. -/
def splitLines (content : String) : List String := splitOnStr content "\n"

/-- The `LineInfo` sequence built by `FileIndex.indexFile` (part_002:39-57):
1-based line numbers, per-line token list and indentation. -/
def lineInfosOf (content : String) : List LineInfo :=
  (splitLines content).enum.map fun (i, line) =>
    ⟨i + 1, line, indexTokenize line, getIndentation line⟩

/-- The token-index update loop of `indexFile` (part_002:50-56), one line at
a time. -/
def addLineTokens (filePath : String) (ti : List (String × List String))
    (lineInfos : List LineInfo) : List (String × List String) :=
  lineInfos.foldl (fun ti li => li.tokens.foldl (fun ti t => addTokenPath ti t filePath) ti) ti

/-- `FileIndex.indexFile` (part_002:34-66), with the `extractSymbols`
extension dispatch supplied as `extract` (see the header note): store the
line infos, add every line token to the inverted token index, and append the
extracted symbols to the symbol index.  The `fileHashes` update is omitted
with the field. -/
def indexFile (extract : String → String → List SymbolInfo)
    (idx : FileIndexSt) (filePath content : String) : FileIndexSt :=
  let lineInfos := lineInfosOf content
  { tokenIndex := addLineTokens filePath idx.tokenIndex lineInfos
    lineIndex := setEntry idx.lineIndex filePath lineInfos
    symbolIndex := addSymbols idx.symbolIndex (extract filePath content) }

/-- The leftmost match of the generic-symbol regex `(\w+)\s*\([^)]*\)`
(part_002:329) in a line: a maximal word run, optional whitespace, `(`, a
run of non-`)` characters, `)`.  Returns the captured word and its start
index (`line.indexOf(match[1])` in the source re-finds the word; for the
concrete inputs below the first occurrence of the word is the match, and
only equality of the extracted symbol lists is ever used). -/
def genericMatchAt : List Char → Option String
  | cs =>
    let word := cs.takeWhile fun c => jsWord c
    if word.isEmpty then none
    else
      let rest := (cs.drop word.length).dropWhile fun c => jsSpace c
      match rest with
      | '(' :: rest' =>
        let inside := rest'.dropWhile fun c => c ≠ ')'
        match inside with
        | ')' :: _ => some (String.mk word)
        | _ => none
      | _ => none

def genericFirstMatch : List Char → Option String
  | [] => none
  | c :: rest =>
    match genericMatchAt (c :: rest) with
    | some w => some w
    | none => genericFirstMatch rest

/-- First index of a character in a string (JS `line.indexOf(match[1])`
specialised to re-finding the matched word; see `genericMatchAt`). -/
def firstIndexOfStr (s pat : String) : Nat :=
  (firstIndexOf s pat).getD 0

/-- `FileIndex.extractGenericSymbols` (part_002:321-336): per line, if the
generic pattern matches and the line contains `{`, record a `function`
symbol. -/
def extractGenericSymbols (content filePath : String) : List SymbolInfo :=
  ((splitLines content).enum.filterMap fun (index, line) =>
    match genericFirstMatch line.data with
    | some w =>
      if line.data.contains '\x7b' then
        some ⟨w, "function", filePath, index + 1, firstIndexOfStr line w,
              String.mk ((line.data.dropWhile fun c => jsSpace c).reverse.dropWhile
                (fun c => jsSpace c)).reverse⟩
      else none
    | none => none)

/-- The `extractSymbols` dispatch instantiated at a path whose extension is
none of js/jsx/ts/tsx/py/java/cpp/c/go (part_002:126-127 `default` branch):
the generic extractor. -/
def genericExtract (filePath content : String) : List SymbolInfo :=
  extractGenericSymbols content filePath

/-- `FileIndex.searchSymbols` (part_002:341-352): case-insensitive substring
match on symbol names, flattening the per-name lists in index order,
truncated to `limit`. -/
def searchSymbols (idx : FileIndexSt) (query : String) (limit : Nat := 50) :
    List SymbolInfo :=
  ((idx.symbolIndex.filter fun (name, _) =>
      jsIncludes (lowerStr name) (lowerStr query)).flatMap fun (_, syms) => syms).take limit

/-- `FileIndex.calculateRelevanceScore` (part_002:420-441): per matched line,
occurrence count of the lowercased query, plus a shortness bonus
`max(0, 100 - len)/100`, plus `2` when the line contains the query surrounded
by spaces; averaged over the matched lines. -/
def calculateRelevanceScore (query : String) (matchedLines : List MatchedLine) : Rat :=
  let total := matchedLines.foldl
    (fun (acc : Rat) line =>
      let content := lowerStr line.content
      let matchCount : Rat := countOccurrences content (lowerStr query)
      let shortness : Rat := (max 0 (100 - (line.content.length : Int)) : Int) / 100
      let wordBonus : Rat := if jsIncludes content (" " ++ lowerStr query ++ " ") then 2 else 0
      acc + matchCount + shortness + wordBonus) 0
  total / (matchedLines.length : Rat)

/-- JS `options.maxResults || 50` (`0` is falsy). -/
def orFifty (n : Nat) : Nat := if n = 0 then 50 else n

/-- `FileIndex.searchContent` (part_002:368-415): tokenize the query,
shortlist candidate files via the token index (insertion-ordered set union),
scan their indexed lines for the (case-folded) query substring, score each
file, sort descending by score (stable) and truncate. -/
def searchContentMatches (caseSensitive : Bool) (query : String)
    (lines : List LineInfo) : List MatchedLine :=
  lines.filterMap fun lineInfo =>
    let searchText := if caseSensitive then lineInfo.content else lowerStr lineInfo.content
    let searchQuery := if caseSensitive then query else lowerStr query
    match firstIndexOf searchText searchQuery with
    | some i => some ⟨lineInfo.lineNumber, lineInfo.content, i, i + query.length⟩
    | none => none

/-- Stable descending insertion by a rational key: the position JS's stable
`Array.prototype.sort` with comparator `(a, b) => b.key - a.key` assigns. -/
def insertByDesc {α : Type} (key : α → Rat) (a : α) : List α → List α
  | [] => [a]
  | b :: bs => if key a < key b then b :: insertByDesc key a bs else a :: b :: bs

def sortByDesc {α : Type} (key : α → Rat) (l : List α) : List α :=
  l.foldr (insertByDesc key) []

def searchContent (idx : FileIndexSt) (query : String)
    (options : SearchOptions) : List FileSearchResult :=
  let queryTokens := indexTokenize query
  let candidateFiles := queryTokens.foldl
    (fun acc t =>
      match lookupEntry idx.tokenIndex t with
      | some files => files.foldl addToSet acc
      | none => acc) []
  let results := candidateFiles.filterMap fun filePath =>
    let lines := (lookupEntry idx.lineIndex filePath).getD []
    let matchedLines := searchContentMatches options.caseSensitive query lines
    if matchedLines.isEmpty then none
    else some (⟨filePath, none, calculateRelevanceScore query matchedLines,
               matchedLines, "content_match"⟩ : FileSearchResult)
  (sortByDesc (fun r => r.score) results).take (orFifty options.maxResults)

/-! ## `VirtualFileSystem` (src/unnamed/part_002:463-939) -/

/-- The store state: `files` (path → entry, insertion-ordered) and the owned
`FileIndex`.  Repository metadata, ignore patterns and listener sets are
omitted: the listener callbacks receive data but never change store state,
and no claim observes them. -/
structure VFS where
  files : List (String × FileEntry)
  index : FileIndexSt
deriving Repr, DecidableEq

def VFS.empty : VFS := ⟨[], FileIndexSt.empty⟩

/-- `VirtualFileSystem.addFile` (part_002:661-690) with the default
`size = null`, `lastModified = null` arguments: normalize the path, store
the entry, and index it when `type === 'file' && content` (JS truthiness:
the empty string is falsy and is not indexed). -/
def VFS.addFile (extract : String → String → List SymbolInfo)
    (fs : VFS) (path content type : String) : VFS :=
  let normalized := normalizePath path
  let entry : FileEntry := ⟨normalized, content, type, content.length⟩
  { files := setEntry fs.files normalized entry
    index := if type = "file" ∧ content ≠ "" then
               indexFile extract fs.index normalized content
             else fs.index }

/-- `VirtualFileSystem.getFile` (part_002:695-708).  The `Storage` content
cache consulted there is external persistence glue (out of scope per the
spec) and is modelled as always empty. -/
def VFS.getFile (fs : VFS) (filePath : String) : Option FileEntry :=
  lookupEntry fs.files (normalizePath filePath)

/-- `VirtualFileSystem.updateFile` (part_002:713-743): overwrite content and
size of an existing entry and re-index; create via `addFile` otherwise. -/
def VFS.updateFile (extract : String → String → List SymbolInfo)
    (fs : VFS) (filePath newContent : String) : VFS :=
  let normalized := normalizePath filePath
  match lookupEntry fs.files normalized with
  | some existingFile =>
    { files := setEntry fs.files normalized
        { existingFile with content := newContent, size := newContent.length }
      index := indexFile extract fs.index normalized newContent }
  | none => VFS.addFile extract fs normalized newContent "file"

/-- `VirtualFileSystem.deleteFile` (part_002:748-767): remove the entry and
return `true`, or return `false` leaving the store unchanged when the
(normalized) path is absent.  The index is not touched. -/
def VFS.deleteFile (fs : VFS) (filePath : String) : VFS × Bool :=
  let normalized := normalizePath filePath
  match lookupEntry fs.files normalized with
  | some _ => ({ fs with files := removeEntry fs.files normalized }, true)
  | none => (fs, false)

/-- `Utils.calculateSimilarity`'s Levenshtein matrix (utils.js:141-170),
computed row by row: row `i` corresponds to the length-`i` prefix of `str2`,
entry `j` to the length-`j` prefix of `str1`. -/
def levRowStep (c2 : Char) : List Char → List Nat → Nat → List Nat
  | c1 :: rest1, pdiag :: prest, left =>
    let pj := prest.headD (pdiag + 1)
    let cur := if c2 = c1 then pdiag else 1 + min pdiag (min left pj)
    cur :: levRowStep c2 rest1 prest cur
  | _, _, _ => []

def levDistance (str1 str2 : String) : Nat :=
  let row0 := List.range (str1.data.length + 1)
  let final := str2.data.foldl
    (fun (state : List Nat × Nat) c2 =>
      let i := state.2 + 1
      (i :: levRowStep c2 str1.data state.1 i, i))
    (row0, 0)
  final.1.getLastD 0

/-- `Utils.calculateSimilarity` (utils.js:141-170):
`(maxLen - distance) / maxLen`, and `1` when both strings are empty. -/
def calculateSimilarity (str1 str2 : String) : Rat :=
  let maxLen := max str1.data.length str2.data.length
  if maxLen = 0 then 1
  else ((maxLen : Rat) - (levDistance str1 str2 : Rat)) / (maxLen : Rat)

/-- The deduplication loop of `VirtualFileSystem.searchFiles`
(part_002:828-835): keep per path the first-inserted position and the
highest score (strictly higher replaces). -/
def dedupResults (results : List FileSearchResult) :
    List (String × FileSearchResult) :=
  results.foldl
    (fun acc result =>
      match lookupEntry acc result.filePath with
      | some existing =>
        if existing.score < result.score then setEntry acc result.filePath result
        else acc
      | none => acc ++ [(result.filePath, result)])
    []

/-- `VirtualFileSystem.searchFiles` (part_002:794-840): filename-similarity
matches (score doubled), then indexed content matches with the entry content
attached, deduplicated by path keeping the best score, sorted descending
(stable) and truncated by `options.maxResults || 50`. -/
def VFS.searchFiles (fs : VFS) (query : String) (options : SearchOptions) :
    List FileSearchResult :=
  let filenameResults : List FileSearchResult :=
    if options.includeFilenames then
      fs.files.filterMap fun (path, file) =>
        let fileName := lowerStr (getFileName path)
        if jsIncludes fileName (lowerStr query) then
          some ⟨path, some file.content,
                calculateSimilarity fileName (lowerStr query) * 2, [], "filename_match"⟩
        else none
    else []
  let contentResults : List FileSearchResult :=
    if options.includeContent then
      (searchContent fs.index query options).map fun result =>
        match fs.getFile result.filePath with
        | some file => { result with content := some file.content }
        | none => result
    else []
  let unique := dedupResults (filenameResults ++ contentResults)
  (sortByDesc (fun r => r.score) (unique.map Prod.snd)).take (orFifty options.maxResults)

/-! ## `ChangeTracker` (src/web/js/core/change-tracker.js) -/

/-- Tracker state (change-tracker.js:7-13): the per-file journal and the
undo/redo stacks (stored top-first; the JS array end is the list head).
`UndoAction` wrappers add only a type tag `'change'` and a timestamp, so a
stack entry is modelled by its `Change`. -/
structure Tracker where
  changes : List (String × List Change)
  undoStack : List Change
  redoStack : List Change
deriving Repr, DecidableEq

def Tracker.empty : Tracker := ⟨[], [], []⟩

def maxHistorySize : Nat := 100

/-- `ChangeTracker.recordChange` (change-tracker.js:18-46): append to the
per-file journal, push onto the undo stack (evicting the oldest entry past
`maxHistorySize`), clear the redo stack. -/
def Tracker.recordChange (t : Tracker) (change : Change) : Tracker :=
  { changes :=
      match lookupEntry t.changes change.filePath with
      | some cs => setEntry t.changes change.filePath (cs ++ [change])
      | none => t.changes ++ [(change.filePath, [change])]
    undoStack := (change :: t.undoStack).take maxHistorySize
    redoStack := [] }

/-- `ChangeTracker.revertChange` (change-tracker.js:113-176): the inverse
operation, `none` for an unknown change type (the JS code throws there).
`revertEdit`/`revertDelete` silently skip when `oldContent` is `null`. -/
def revertChange (extract : String → String → List SymbolInfo)
    (fs : VFS) (c : Change) : Option VFS :=
  match c.type with
  | "create" => some (fs.deleteFile c.filePath).1
  | "edit" =>
    match c.oldContent with
    | some old => some (fs.updateFile extract c.filePath old)
    | none => some fs
  | "delete" =>
    match c.oldContent with
    | some old => some (fs.addFile extract c.filePath old "file")
    | none => some fs
  | _ => none

/-- `ChangeTracker.applyChange` (change-tracker.js:132-203): the forward
operation; `applyCreate`/`applyEdit` silently skip when `newContent` is
`null`. -/
def applyChange (extract : String → String → List SymbolInfo)
    (fs : VFS) (c : Change) : Option VFS :=
  match c.type with
  | "create" =>
    match c.newContent with
    | some newC => some (fs.addFile extract c.filePath newC "file")
    | none => some fs
  | "edit" =>
    match c.newContent with
    | some newC => some (fs.updateFile extract c.filePath newC)
    | none => some fs
  | "delete" => some (fs.deleteFile c.filePath).1
  | _ => none

/-- The coupled file-system/tracker state mutated by the file tools. -/
structure SysState where
  fs : VFS
  tracker : Tracker
deriving Repr, DecidableEq

/-- `ChangeTracker.undo` (change-tracker.js:51-77): pop the top undo entry,
revert it against the file system, push it onto the redo stack.  `.ok
(false, _)` models the `return false` on an empty stack; `.error` models the
re-thrown exception of an unknown change type (the entry is re-pushed first,
so the state is unchanged). -/
def undoStep (extract : String → String → List SymbolInfo) (s : SysState) :
    Except String (Bool × SysState) :=
  match s.tracker.undoStack with
  | [] => .ok (false, s)
  | c :: rest =>
    match revertChange extract s.fs c with
    | some fs' => .ok (true,
        ⟨fs', { s.tracker with undoStack := rest,
                               redoStack := c :: s.tracker.redoStack }⟩)
    | none => .error "Unknown change type"

/-- `ChangeTracker.redo` (change-tracker.js:82-108): pop the top redo entry,
re-apply it, push it back onto the undo stack.  Note: the re-push does not
re-apply the `maxHistorySize` cap (the JS code pushes directly). -/
def redoStep (extract : String → String → List SymbolInfo) (s : SysState) :
    Except String (Bool × SysState) :=
  match s.tracker.redoStack with
  | [] => .ok (false, s)
  | c :: rest =>
    match applyChange extract s.fs c with
    | some fs' => .ok (true,
        ⟨fs', { s.tracker with redoStack := rest,
                               undoStack := c :: s.tracker.undoStack }⟩)
    | none => .error "Unknown change type"

def undoN (extract : String → String → List SymbolInfo) :
    Nat → SysState → Except String SysState
  | 0, s => .ok s
  | n + 1, s => do
    let (_, s') ← undoStep extract s
    undoN extract n s'

def redoN (extract : String → String → List SymbolInfo) :
    Nat → SysState → Except String SysState
  | 0, s => .ok s
  | n + 1, s => do
    let (_, s') ← redoStep extract s
    redoN extract n s'

/-! ## `ContextManager` (src/web/js/core/utils.js:430-925) -/

/-- JS `String.prototype.trim` on the whitespace that occurs in the
modelled data. -/
def jsTrim (s : String) : String :=
  String.mk (((s.data.dropWhile fun c => jsSpace c).reverse.dropWhile
    fun c => jsSpace c).reverse)

/-- Leftmost match of `from\s+['"]([^'"]+)['"]` at the head of `l`
(the tail of the `^import\s+.*?from\s+['"]([^'"]+)['"]` pattern,
utils.js:668). -/
def jsFromAt (l : List Char) : Option String :=
  if l.take 4 = "from".data then
    let afterKw := l.drop 4
    let afterSpaces := afterKw.dropWhile fun c => jsSpace c
    if afterSpaces.length = afterKw.length then none
    else match afterSpaces with
      | q :: rest =>
        if q = '\'' ∨ q = '"' then
          let captured := rest.takeWhile fun c => c ≠ '\'' ∧ c ≠ '"'
          if captured.isEmpty then none
          else match rest.drop captured.length with
            | _ :: _ => some (String.mk captured)
            | [] => none
        else none
      | [] => none
  else none

def jsImportScan : List Char → Option String
  | [] => none
  | c :: rest =>
    match jsFromAt (c :: rest) with
    | some capture => some capture
    | none => jsImportScan rest

/-- `^import\s+.*?from\s+['"]([^'"]+)['"]` (utils.js:668): `import`, at
least one whitespace character, then the leftmost quoted `from` target. -/
def matchJsImport (trimmed : String) : Option String :=
  let cs := trimmed.data
  if cs.take 6 = "import".data then
    match cs.drop 6 with
    | c :: rest => if jsSpace c then jsImportScan rest else none
    | [] => none
  else none

/-- Match of `require\s*\(\s*['"]([^'"]+)['"]\s*\)` starting at `l`
(utils.js:675). -/
def requireAt (l : List Char) : Option String :=
  if l.take 7 = "require".data then
    let afterKw := (l.drop 7).dropWhile fun c => jsSpace c
    match afterKw with
    | '(' :: rest =>
      let afterParen := rest.dropWhile fun c => jsSpace c
      match afterParen with
      | q :: rest' =>
        if q = '\'' ∨ q = '"' then
          let captured := rest'.takeWhile fun c => c ≠ '\'' ∧ c ≠ '"'
          if captured.isEmpty then none
          else match rest'.drop captured.length with
            | _ :: afterQuote =>
              match afterQuote.dropWhile (fun c => jsSpace c) with
              | ')' :: _ => some (String.mk captured)
              | _ => none
            | [] => none
        else none
      | [] => none
    | _ => none
  else none

def requireScan : List Char → Option String
  | [] => none
  | c :: rest =>
    match requireAt (c :: rest) with
    | some capture => some capture
    | none => requireScan rest

/-- `^from\s+([^\s]+)\s+import` (utils.js:682). -/
def matchPyFrom (trimmed : String) : Option String :=
  let cs := trimmed.data
  if cs.take 4 = "from".data then
    match cs.drop 4 with
    | c :: rest =>
      if jsSpace c then
        let afterSpaces := rest.dropWhile fun c => jsSpace c
        let captured := afterSpaces.takeWhile fun c => ¬ jsSpace c
        if captured.isEmpty then none
        else
          let afterCap := afterSpaces.drop captured.length
          let afterSp2 := afterCap.dropWhile fun c => jsSpace c
          if afterSp2.length = afterCap.length then none
          else if afterSp2.take 6 = "import".data then some (String.mk captured)
          else none
      else none
    | [] => none
  else none

/-- `^import\s+([^\s]+)` (utils.js:688). -/
def matchPyImport (trimmed : String) : Option String :=
  let cs := trimmed.data
  if cs.take 6 = "import".data then
    match cs.drop 6 with
    | c :: rest =>
      if jsSpace c then
        let captured := (rest.dropWhile fun c => jsSpace c).takeWhile fun c => ¬ jsSpace c
        if captured.isEmpty then none else some (String.mk captured)
      else none
    | [] => none
  else none

/-- `^#include\s*["<]([^">]+)[">]` (utils.js:695). -/
def matchInclude (trimmed : String) : Option String :=
  let cs := trimmed.data
  if cs.take 8 = "#include".data then
    let afterKw := (cs.drop 8).dropWhile fun c => jsSpace c
    match afterKw with
    | q :: rest =>
      if q = '"' ∨ q = '<' then
        let captured := rest.takeWhile fun c => c ≠ '"' ∧ c ≠ '>'
        if captured.isEmpty then none
        else match rest.drop captured.length with
          | _ :: _ => some (String.mk captured)
          | [] => none
      else none
    | [] => none
  else none

/-- `ContextManager.extractImports` (utils.js:660-703): per line (trimmed),
the first of the five patterns that matches contributes its capture. -/
def extractImports (content : String) : List String :=
  (splitLines content).filterMap fun line =>
    let trimmed := jsTrim line
    match matchJsImport trimmed with
    | some m => some m
    | none =>
      match requireScan trimmed.data with
      | some m => some m
      | none =>
        match matchPyFrom trimmed with
        | some m => some m
        | none =>
          match matchPyImport trimmed with
          | some m => some m
          | none => matchInclude trimmed

/-- `ContextManager.resolvePath` (utils.js:749-762). -/
def resolvePath (base relative : String) : String :=
  let parts := splitOnStr base "/" ++ splitOnStr relative "/"
  joinWith "/" (parts.foldl
    (fun resolved part =>
      if part = ".." then resolved.dropLast
      else if part = "." ∨ part = "" then resolved
      else resolved ++ [part]) [])

/-- `ContextManager.resolveImportPath` (utils.js:708-744).  Note that a
relative import that fails the extension probes falls through to the
absolute-path probes (there is no early return after the first loop). -/
def resolveImportPath (fs : VFS) (importPath : String) (fromFile : Option String) :
    Option (Option String) :=
  if strStartsWith importPath "./" ∨ strStartsWith importPath "../" then
    match fromFile with
    | none => some none
    | some fromF =>
      let resolved := resolvePath (getDirectoryPath fromF) importPath
      let extensions := ["", ".js", ".ts", ".jsx", ".tsx", "/index.js", "/index.ts"]
      match extensions.find? fun ext => (lookupEntry fs.files (resolved ++ ext)).isSome with
      | some ext => some (some (resolved ++ ext))
      | none => none
  else none

def resolveImportAbs (fs : VFS) (importPath : String) : Option String :=
  let possiblePaths :=
    [importPath, "src/" ++ importPath, "lib/" ++ importPath,
     importPath ++ ".js", importPath ++ ".ts",
     "src/" ++ importPath ++ ".js", "src/" ++ importPath ++ ".ts"]
  possiblePaths.find? fun path => (lookupEntry fs.files path).isSome

/-- The full resolution: the relative branch either returns (`some`) or
falls through (`none`) to the absolute probes. -/
def resolveImport (fs : VFS) (importPath : String) (fromFile : Option String) :
    Option String :=
  match resolveImportPath fs importPath fromFile with
  | some r => r
  | none => resolveImportAbs fs importPath

/-- `ContextManager.findRelatedFiles` (utils.js:625-655): union the imports
of the selected files (insertion-ordered, deduplicated), resolve each
against the first selected file's directory, and take up to three existing
targets as `dependency` files with score `0.6`. -/
def findRelatedFiles (fs : VFS) (relevantFiles : List RelevantFile) :
    List RelevantFile :=
  let imports := relevantFiles.foldl
    (fun acc rf => (extractImports rf.content).foldl addToSet acc) []
  let fromFile := relevantFiles.head?.map fun rf => rf.path
  imports.foldl
    (fun relatedFiles importPath =>
      if 3 ≤ relatedFiles.length then relatedFiles
      else
        match resolveImport fs importPath fromFile with
        | some resolvedPath =>
          match fs.getFile resolvedPath with
          | some file =>
            relatedFiles ++ [⟨resolvedPath, file.content, 3/5, "dependency", []⟩]
          | none => relatedFiles
        | none => relatedFiles)
    []

/-- Accumulator of `ContextManager.findRelevantFiles`: the selected files
and the `seenPaths` set. -/
structure GatherAcc where
  files : List RelevantFile
  seen : List String
deriving Repr, DecidableEq

/-- Stage 1 of `findRelevantFiles` (utils.js:559-573): each directly
mentioned file that exists joins with score `1.0`. -/
def addDirect (fs : VFS) (acc : GatherAcc) (filePath : String) : GatherAcc :=
  if filePath ∈ acc.seen then acc
  else
    match fs.getFile filePath with
    | some file =>
      ⟨acc.files ++ [⟨filePath, file.content, 1, "directly_mentioned", []⟩],
       acc.seen ++ [filePath]⟩
    | none => acc

/-- The inner loop of stage 2 (utils.js:586-600): add search results with
score `× 0.8`; an already-seen path or a full selection *breaks* the loop. -/
def addKeywordResults (fs : VFS) (maxFiles : Nat) :
    List FileSearchResult → GatherAcc → GatherAcc
  | [], acc => acc
  | result :: rest, acc =>
    if result.filePath ∈ acc.seen ∨ maxFiles ≤ acc.files.length then acc
    else
      match fs.getFile result.filePath with
      | some file =>
        addKeywordResults fs maxFiles rest
          ⟨acc.files ++ [⟨result.filePath, file.content, result.score * (4/5),
                         "keyword_match", result.matchedLines⟩],
           acc.seen ++ [result.filePath]⟩
      | none => addKeywordResults fs maxFiles rest acc

/-- Stage 3 loop (utils.js:610-615): same break behaviour for dependency
files. -/
def addRelated (maxFiles : Nat) : List RelevantFile → GatherAcc → GatherAcc
  | [], acc => acc
  | rf :: rest, acc =>
    if rf.path ∈ acc.seen ∨ maxFiles ≤ acc.files.length then acc
    else addRelated maxFiles rest ⟨acc.files ++ [rf], acc.seen ++ [rf.path]⟩

/-- Stage 1 of `findRelevantFiles` (utils.js:559-573): every directly
mentioned file. -/
def gatherStage1 (fs : VFS) (intent : UserIntent) : GatherAcc :=
  intent.targetFiles.foldl (addDirect fs) ⟨[], []⟩

/-- Stage 2 of `findRelevantFiles` (utils.js:575-605): keyword search for
the first three keywords, guarded once before the loop. -/
def gatherStage2 (fs : VFS) (intent : UserIntent) (maxFiles : Nat)
    (acc1 : GatherAcc) : GatherAcc :=
  if intent.keywords ≠ [] ∧ acc1.files.length < maxFiles then
    let searchOptions : SearchOptions :=
      { includeFilenames := true, includeContent := true,
        caseSensitive := false, maxResults := maxFiles * 2 }
    (intent.keywords.take 3).foldl
      (fun acc keyword =>
        addKeywordResults fs maxFiles (fs.searchFiles keyword searchOptions) acc)
      acc1
  else acc1

/-- Stage 3 of `findRelevantFiles` (utils.js:607-616): import-reachable
dependency files. -/
def gatherStage3 (fs : VFS) (maxFiles : Nat) (acc2 : GatherAcc) : GatherAcc :=
  if 0 < acc2.files.length ∧ acc2.files.length < maxFiles then
    addRelated maxFiles (findRelatedFiles fs acc2.files) acc2
  else acc2

/-- `ContextManager.findRelevantFiles` (utils.js:555-620): directly
mentioned files, then keyword-search results for the first three keywords,
then import-reachable dependency files, finally sorted descending by
relevance score (stable). -/
def findRelevantFiles (fs : VFS) (intent : UserIntent)
    (maxFiles : Nat := 5) : List RelevantFile :=
  sortByDesc (fun f => f.relevanceScore)
    (gatherStage3 fs maxFiles (gatherStage2 fs intent maxFiles (gatherStage1 fs intent))).files

/-- `ContextManager.trimContextToLimit` (utils.js:854-882): accumulate files
while they fit the character budget; at the first file that does not fit,
include a truncated prefix (score `× 0.7`, reason suffixed `_partial`) when
strictly more than 500 characters of budget remain, and stop either way. -/
def trimContextLoop (maxContextChars : Nat) :
    List RelevantFile → Nat → List RelevantFile
  | [], _ => []
  | file :: rest, totalChars =>
    let fileChars := file.content.length
    if totalChars + fileChars ≤ maxContextChars then
      file :: trimContextLoop maxContextChars rest (totalChars + fileChars)
    else
      let remainingChars := maxContextChars - totalChars
      if 500 < remainingChars then
        [⟨file.path,
          strTake file.content (remainingChars - 100) ++ "\n\n... [truncated]",
          file.relevanceScore * (7/10), file.reason ++ "_partial",
          file.matchedLines⟩]
      else []

def trimContextToLimit (maxContextChars : Nat) (relevantFiles : List RelevantFile) :
    List RelevantFile :=
  trimContextLoop maxContextChars relevantFiles 0

/-- The default budget: `maxContextTokens (8000) × avgCharsPerToken (4)`
(utils.js:433-435). -/
def defaultMaxContextChars : Nat := 8000 * 4

/-! ## File tools (src/web/js/tools/file-tools.js)

Each tool's `execute` is modelled as a state transformer returning
`Except String SysState`: `.error` is the thrown `Error` (its message), and
a throw leaves the state untouched because every mutation in the source
happens only after all guards have passed.  The human-readable success
summary strings (file sizes, dates, previews) are pure formatting and are
not modelled. -/

/-- `/\.[^.]*$/`-strip used by the Java and Markdown templates
(file-tools.js:271,301). -/
def stripLastExt (fileName : String) : String :=
  match splitOnStr fileName "." with
  | [] => fileName
  | [_] => fileName
  | parts => joinWith "." parts.dropLast

/-- `CreateFileTool.getCodeTemplate` (file-tools.js:262-282). -/
def getCodeTemplate (extension fileName : String) : String :=
  match extension with
  | "js" => "/**\n * " ++ fileName ++ " */\n\n// TODO: Implement functionality\n"
  | "ts" => "/**\n * " ++ fileName ++ " */\n\n// TODO: Implement functionality\nexport \x7b\x7d;\n"
  | "py" => "#!/usr/bin/env python3\n\"\"\"\n" ++ fileName ++ "\n\"\"\"\n\n# TODO: Implement functionality\n"
  | "java" => "public class " ++ stripLastExt fileName ++ " \x7b\n    // TODO: Implement functionality\n\x7d\n"
  | "cpp" => "#include <iostream>\n\nint main() \x7b\n    // TODO: Implement functionality\n    return 0;\n\x7d\n"
  | "html" => "<!DOCTYPE html>\n<html lang=\"en\">\n<head>\n    <meta charset=\"UTF-8\">\n    <meta name=\"viewport\" content=\"width=device-width, initial-scale=1.0\">\n    <title>Document</title>\n</head>\n<body>\n    <!-- TODO: Add content -->\n</body>\n</html>\n"
  | "css" => "/* " ++ fileName ++ " */\n\n/* TODO: Add styles */\n"
  | _ => "// " ++ fileName ++ "\n\n// TODO: Implement functionality\n"

/-- `CreateFileTool.getConfigTemplate` (file-tools.js:284-298). -/
def getConfigTemplate (extension : String) : String :=
  match extension with
  | "json" => "\x7b\n    \"name\": \"project\",\n    \"version\": \"1.0.0\"\n\x7d\n"
  | "yaml" => "name: project\nversion: 1.0.0\n"
  | "yml" => "name: project\nversion: 1.0.0\n"
  | "toml" => "[project]\nname = \"project\"\nversion = \"1.0.0\"\n"
  | "ini" => "[DEFAULT]\nname = project\nversion = 1.0.0\n"
  | _ => "# Configuration file\n"

/-- `CreateFileTool.getMarkdownTemplate` (file-tools.js:300-303). -/
def getMarkdownTemplate (fileName : String) : String :=
  let title := String.mk ((stripLastExt fileName).data.map fun c =>
    if c = '-' ∨ c = '_' then ' ' else c)
  "# " ++ title ++ "\n\n## Overview\n\nTODO: Add description\n\n## Usage\n\nTODO: Add usage instructions\n"

/-- `CreateFileTool.getTemplateContent` (file-tools.js:246-260). -/
def getTemplateContent (filePath fileType : String) : String :=
  match fileType with
  | "code" => getCodeTemplate (getFileExtension filePath) (getFileName filePath)
  | "config" => getConfigTemplate (getFileExtension filePath)
  | "markdown" => getMarkdownTemplate (getFileName filePath)
  | _ => ""

/-- `CreateFileTool.execute` (file-tools.js:212-244): strict create — fails
when the path already exists, otherwise adds the file (with a scaffold when
`content` is empty, JS truthiness) and records a `create` change.  Defaults:
`content = ''`, `file_type = 'text'`. -/
def createFileExecute (extract : String → String → List SymbolInfo)
    (s : SysState) (filePath : String) (content : String := "")
    (fileType : String := "text") : Except String SysState :=
  match s.fs.getFile filePath with
  | some _ => .error ("Failed to create file: File already exists: " ++ filePath ++
      ". Use write_file or edit_file to modify existing files.")
  | none =>
    let finalContent :=
      if content = "" ∧ fileType ≠ "" then getTemplateContent filePath fileType
      else content
    .ok ⟨s.fs.addFile extract filePath finalContent "file",
         s.tracker.recordChange ⟨"create", filePath, none, some finalContent⟩⟩

/-- `WriteFileTool.execute` (file-tools.js:89-115): overwrite-or-create,
recording an `edit` change when the file existed (with its old content) and
a `create` change otherwise. -/
def writeFileExecute (extract : String → String → List SymbolInfo)
    (s : SysState) (filePath content : String) : Except String SysState :=
  let existingFile := s.fs.getFile filePath
  let oldContent := existingFile.map fun f => f.content
  let changeType := if existingFile.isSome then "edit" else "create"
  .ok ⟨s.fs.updateFile extract filePath content,
       s.tracker.recordChange ⟨changeType, filePath, oldContent, some content⟩⟩

/-- `EditFileTool.execute` (file-tools.js:136-188): verbatim-occurrence
edit with the multi-occurrence ambiguity guard, recording an `edit` change.
The occurrence count and the `replace_all` substitution use the
regex-escaped pattern globally, i.e. literal non-overlapping matching. -/
def editFileExecute (extract : String → String → List SymbolInfo)
    (s : SysState) (filePath oldContent newContent : String)
    (replaceAll : Bool := false) : Except String SysState :=
  match s.fs.getFile filePath with
  | none => .error ("Failed to edit file: File not found: " ++ filePath)
  | some file =>
    if file.type = "directory" then
      .error ("Failed to edit file: Path is a directory, not a file: " ++ filePath)
    else
      let originalContent := file.content
      if ¬ jsIncludes originalContent oldContent then
        .error "Failed to edit file: Content not found in file. Make sure the content matches exactly, including whitespace and line breaks."
      else
        let occurrences := countOccurrences originalContent oldContent
        if ¬ replaceAll ∧ 1 < occurrences then
          .error ("Failed to edit file: Content appears " ++ toString occurrences ++
            " times in the file. Use replace_all: true to replace all occurrences, or provide more specific content to match only one occurrence.")
        else
          let newFileContent :=
            if replaceAll then jsReplaceAll originalContent oldContent newContent
            else replaceFirst originalContent oldContent newContent
          .ok ⟨s.fs.updateFile extract filePath newFileContent,
               s.tracker.recordChange
                 ⟨"edit", filePath, some originalContent, some newFileContent⟩⟩

/-- `DeleteFileTool.execute` (file-tools.js:322-355): requires
`confirm = true`, refuses directories, records a `delete` change with the
removed content. -/
def deleteFileExecute (s : SysState) (filePath : String) (confirm : Bool) :
    Except String SysState :=
  if ¬ confirm then .error "Deletion must be confirmed by setting confirm: true"
  else
    match s.fs.getFile filePath with
    | none => .error ("Failed to delete file: File not found: " ++ filePath)
    | some file =>
      if file.type = "directory" then
        .error ("Failed to delete file: Cannot delete directory with this tool: " ++ filePath)
      else
        let deleted := s.fs.deleteFile filePath
        if ¬ deleted.2 then .error ("Failed to delete file: Failed to delete file: " ++ filePath)
        else .ok ⟨deleted.1,
          s.tracker.recordChange ⟨"delete", filePath, some file.content, none⟩⟩

/-! ## Tool-mediated mutation sequences

The changes the `ChangeTracker` receives are exactly the ones the mutating
file tools record while performing the corresponding store mutation; a
sequence of recorded Create/Edit/Delete changes is therefore modelled as a
sequence of tool invocations. -/

inductive ToolOp where
  | create (path content fileType : String)
  | write (path content : String)
  | edit (path oldContent newContent : String) (replaceAll : Bool)
  | delete (path : String)
deriving Repr, DecidableEq

def runOp (extract : String → String → List SymbolInfo) (s : SysState) :
    ToolOp → Except String SysState
  | .create p c ft => createFileExecute extract s p c ft
  | .write p c => writeFileExecute extract s p c
  | .edit p old new ra => editFileExecute extract s p old new ra
  | .delete p => deleteFileExecute s p true

def runOps (extract : String → String → List SymbolInfo) :
    SysState → List ToolOp → Except String SysState
  | s, [] => .ok s
  | s, op :: ops => do
    let s' ← runOp extract s op
    runOps extract s' ops

/-! ## Tool validation and registry (src/web/js/tools/base-tool.js) -/

/-- JS argument values as seen by `BaseTool.validateArgs`.  `===` on arrays
and objects is reference equality; the argument values and the enum
literals of a tool definition are always distinct objects, so strict
equality between composite values is `false`. -/
inductive JsValue where
  | str (s : String)
  | num (n : Rat)
  | bool (b : Bool)
  | arr (n : Nat)
  | obj (n : Nat)
  | null
deriving Repr, DecidableEq

/-- JS `===` as used by `Array.prototype.includes` in the enum check. -/
def jsStrictEq : JsValue → JsValue → Bool
  | .str a, .str b => a = b
  | .num a, .num b => a = b
  | .bool a, .bool b => a = b
  | .null, .null => true
  | _, _ => false

/-- `ToolParameter` (prompts.js:368-376). -/
structure ToolParameter where
  name : String
  type : String
  description : String := ""
  required : Bool := false
  enum : Option (List JsValue) := none
deriving Repr, DecidableEq

/-- `ToolResult` (prompts.js:385-392); the `toolCall` back-reference is
omitted. -/
structure ToolResult where
  success : Bool
  result : Option String
  error : Option String
deriving Repr, DecidableEq

/-- `ToolCall` (prompts.js:359-365); arguments are a JS object, i.e. an
insertion-ordered association list. -/
structure ToolCall where
  id : String := ""
  name : String
  arguments : List (String × JsValue)
deriving Repr, DecidableEq

/-- The type-check branch of `BaseTool.validateArgs` (base-tool.js:66-93):
`typeof`/`Array.isArray` dispatch per declared parameter type.  An
undeclared type string has no `case` and produces no error. -/
def typeMismatch (declaredType : String) (value : JsValue) : Bool :=
  match declaredType with
  | "string" => match value with | .str _ => false | _ => true
  | "number" => match value with | .num _ => false | _ => true
  | "boolean" => match value with | .bool _ => false | _ => true
  | "array" => match value with | .arr _ => false | _ => true
  | "object" => match value with | .obj _ => false | _ => true
  | _ => false

/-- The message of the type-check switch branch for a declared type
(base-tool.js:66-93); only read under a `typeMismatch`, so the undeclared
default (which raises no error in the source) never surfaces. -/
def typeErrorText (name ty : String) : String :=
  match ty with
  | "string" => "Parameter '" ++ name ++ "' must be a string"
  | "number" => "Parameter '" ++ name ++ "' must be a number"
  | "boolean" => "Parameter '" ++ name ++ "' must be a boolean"
  | "array" => "Parameter '" ++ name ++ "' must be an array"
  | _ => "Parameter '" ++ name ++ "' must be an object"

/-- The errors one parameter contributes in `validateArgs`
(base-tool.js:58-100): a missing-required error, then, when the argument is
supplied, a type error and an enum error. -/
def paramErrors (args : List (String × JsValue)) (param : ToolParameter) :
    List String :=
  (if param.required ∧ (lookupEntry args param.name).isNone then
    ["Required parameter '" ++ param.name ++ "' is missing"]
   else []) ++
  (match lookupEntry args param.name with
   | none => []
   | some value =>
     (if typeMismatch param.type value then [typeErrorText param.name param.type]
      else []) ++
     (match param.enum with
      | some enumVals =>
        if enumVals.any fun v => jsStrictEq v value then []
        else ["Parameter '" ++ param.name ++ "' must be one of the declared values"]
      | none => []))

/-- `BaseTool.validateArgs` (base-tool.js:55-103): the `forEach` over the
declared parameters, pushing every violation into one error list. -/
def validateArgs (parameters : List ToolParameter)
    (args : List (String × JsValue)) : List String :=
  parameters.foldl (fun errors param => errors ++ paramErrors args param) []

/-- A registered tool as `ToolRegistry.execute` sees it: its declared
parameters and its `execute` behaviour (a state-free result/throw
abstraction; the claims about the registry do not depend on tool state
effects). -/
structure RegTool where
  parameters : List ToolParameter
  run : List (String × JsValue) → Except String String

/-- `ToolRegistry.execute` (base-tool.js:173-194): unknown-tool failure,
validation failure bundling all errors joined by `', '`, thrown-error
capture via `formatError`, success via `formatResult`. -/
def registryExecute (tools : List (String × RegTool)) (toolCall : ToolCall) :
    ToolResult :=
  match lookupEntry tools toolCall.name with
  | none => ⟨false, none, some ("Unknown tool: " ++ toolCall.name)⟩
  | some tool =>
    let validationErrors := validateArgs tool.parameters toolCall.arguments
    if validationErrors ≠ [] then
      ⟨false, none, some ("Validation errors: " ++ joinWith ", " validationErrors)⟩
    else
      match tool.run toolCall.arguments with
      | .error e => ⟨false, none, some e⟩
      | .ok r => ⟨true, some r, none⟩
/-! ## Shared lemmas: association lists -/

theorem lookup_setEntry_self {β : Type} (l : List (String × β)) (k : String) (v : β) :
    lookupEntry (setEntry l k v) k = some v := by
  induction l with
  | nil => simp [setEntry, lookupEntry]
  | cons kv rest ih =>
    obtain ⟨k', v'⟩ := kv
    by_cases h : k' = k
    · simp [setEntry, lookupEntry, h]
    · simp [setEntry, lookupEntry, h, ih]

theorem lookup_setEntry_ne {β : Type} (l : List (String × β)) (k q : String) (v : β)
    (h : q ≠ k) : lookupEntry (setEntry l k v) q = lookupEntry l q := by
  induction l with
  | nil => simp [setEntry, lookupEntry, Ne.symm h]
  | cons kv rest ih =>
    obtain ⟨k', v'⟩ := kv
    by_cases hk : k' = k
    · subst hk
      simp [setEntry, lookupEntry, Ne.symm h]
    · by_cases hq : k' = q
      · subst hq
        simp [setEntry, lookupEntry, hk]
      · simp [setEntry, lookupEntry, hk, hq, ih]

theorem lookup_removeEntry_ne {β : Type} (l : List (String × β)) (k q : String)
    (h : q ≠ k) : lookupEntry (removeEntry l k) q = lookupEntry l q := by
  induction l with
  | nil => simp [removeEntry]
  | cons kv rest ih =>
    obtain ⟨k', v'⟩ := kv
    by_cases hk : k' = k
    · subst hk
      simp [removeEntry, lookupEntry, Ne.symm h]
    · by_cases hq : k' = q
      · subst hq
        simp [removeEntry, lookupEntry, hk]
      · simp [removeEntry, lookupEntry, hk, hq, ih]

theorem mem_keys_setEntry {β : Type} (l : List (String × β)) (k q : String) (v : β) :
    q ∈ (setEntry l k v).map Prod.fst ↔ q = k ∨ q ∈ l.map Prod.fst := by
  induction l with
  | nil => simp [setEntry]
  | cons kv rest ih =>
    obtain ⟨k', v'⟩ := kv
    by_cases hk : k' = k
    · subst hk
      simp [setEntry]
    · simp [setEntry, hk, ih]
      tauto

theorem mem_keys_removeEntry {β : Type} (l : List (String × β)) (k q : String)
    (h : q ∈ (removeEntry l k).map Prod.fst) : q ∈ l.map Prod.fst := by
  induction l with
  | nil => simp [removeEntry] at h
  | cons kv rest ih =>
    obtain ⟨k', v'⟩ := kv
    by_cases hk : k' = k
    · subst hk
      simp only [removeEntry, eq_self_iff_true, if_true] at h
      simp [h]
    · simp only [removeEntry, if_neg hk, List.map_cons, List.mem_cons] at h
      rcases h with h | h
      · simp [h]
      · simp [ih h]

theorem keys_setEntry_nodup {β : Type} (l : List (String × β)) (k : String) (v : β)
    (h : (l.map Prod.fst).Nodup) : ((setEntry l k v).map Prod.fst).Nodup := by
  induction l with
  | nil => simp [setEntry]
  | cons kv rest ih =>
    obtain ⟨k', v'⟩ := kv
    simp only [List.map_cons, List.nodup_cons] at h
    by_cases hk : k' = k
    · subst hk
      simpa [setEntry] using h
    · simp only [setEntry, if_neg hk, List.map_cons, List.nodup_cons]
      refine ⟨fun hmem => ?_, ih h.2⟩
      rcases (mem_keys_setEntry rest k k' v).mp hmem with h3 | h3
      · exact hk h3
      · exact h.1 h3

theorem keys_removeEntry_nodup {β : Type} (l : List (String × β)) (k : String)
    (h : (l.map Prod.fst).Nodup) : ((removeEntry l k).map Prod.fst).Nodup := by
  induction l with
  | nil => simp [removeEntry]
  | cons kv rest ih =>
    obtain ⟨k', v'⟩ := kv
    simp only [List.map_cons, List.nodup_cons] at h
    by_cases hk : k' = k
    · subst hk
      simpa [removeEntry] using h.2
    · simp only [removeEntry, if_neg hk, List.map_cons, List.nodup_cons]
      exact ⟨fun hmem => h.1 (mem_keys_removeEntry rest k k' hmem), ih h.2⟩

theorem lookup_removeEntry_self {β : Type} (l : List (String × β)) (k : String)
    (h : (l.map Prod.fst).Nodup) : lookupEntry (removeEntry l k) k = none := by
  induction l with
  | nil => simp [removeEntry, lookupEntry]
  | cons kv rest ih =>
    obtain ⟨k', v'⟩ := kv
    simp only [List.map_cons, List.nodup_cons] at h
    by_cases hk : k' = k
    · subst hk
      simp only [removeEntry, if_pos rfl]
      clear ih
      induction rest with
      | nil => simp [lookupEntry]
      | cons kv2 rest2 ih2 =>
        obtain ⟨k2, v2⟩ := kv2
        simp only [List.map_cons, List.mem_cons, List.nodup_cons] at h
        have hne : k2 ≠ k' := fun hh => h.1 (Or.inl hh.symm)
        simp only [lookupEntry, if_neg hne]
        exact ih2 ⟨fun hm => h.1 (Or.inr hm), h.2.2⟩
    · simp only [removeEntry, if_neg hk, lookupEntry, if_neg hk]
      exact ih h.2

theorem setEntry_of_lookup_eq {β : Type} (l : List (String × β)) (k : String) (v : β)
    (h : lookupEntry l k = some v) : setEntry l k v = l := by
  induction l with
  | nil => simp [lookupEntry] at h
  | cons kv rest ih =>
    obtain ⟨k', v'⟩ := kv
    by_cases hk : k' = k
    · subst hk
      simp only [lookupEntry, eq_self_iff_true, if_true, Option.some.injEq] at h
      simp [setEntry, h]
    · simp only [lookupEntry, if_neg hk] at h
      simp [setEntry, hk, ih h]

theorem setEntry_setEntry_same {β : Type} (l : List (String × β)) (k : String) (v w : β) :
    setEntry (setEntry l k v) k w = setEntry l k w := by
  induction l with
  | nil => simp [setEntry]
  | cons kv rest ih =>
    obtain ⟨k', v'⟩ := kv
    by_cases hk : k' = k
    · simp [setEntry, hk]
    · simp [setEntry, hk, ih]

/-! ## Shared lemmas: path normalization -/

theorem collapseSlashes_cons :
    ∀ (x : Char) (xs : List Char), ∃ t, collapseSlashes (x :: xs) = x :: t
  | _, [] => ⟨[], rfl⟩
  | x, y :: rest => by
    by_cases h : x = '/' ∧ y = '/'
    · obtain ⟨t, ht⟩ := collapseSlashes_cons y rest
      exact ⟨t, by rw [collapseSlashes, if_pos h, ht, h.1, h.2]⟩
    · exact ⟨collapseSlashes (y :: rest), by rw [collapseSlashes, if_neg h]⟩

theorem collapseSlashes_chain :
    ∀ l : List Char, List.Chain' (fun a b => ¬(a = '/' ∧ b = '/')) (collapseSlashes l)
  | [] => by simp [collapseSlashes]
  | [c] => by simp [collapseSlashes]
  | a :: b :: rest => by
    by_cases h : a = '/' ∧ b = '/'
    · rw [collapseSlashes, if_pos h]
      exact collapseSlashes_chain (b :: rest)
    · rw [collapseSlashes, if_neg h]
      have ih := collapseSlashes_chain (b :: rest)
      obtain ⟨t, ht⟩ := collapseSlashes_cons b rest
      rw [ht] at ih ⊢
      exact List.chain'_cons.mpr ⟨h, ih⟩

theorem collapseSlashes_of_chain :
    ∀ l : List Char, List.Chain' (fun a b => ¬(a = '/' ∧ b = '/')) l →
      collapseSlashes l = l
  | [], _ => rfl
  | [_], _ => rfl
  | a :: b :: rest, h => by
    rw [List.chain'_cons] at h
    rw [collapseSlashes, if_neg h.1, collapseSlashes_of_chain (b :: rest) h.2]

theorem collapseSlashes_idem (l : List Char) :
    collapseSlashes (collapseSlashes l) = collapseSlashes l :=
  collapseSlashes_of_chain _ (collapseSlashes_chain l)

theorem mem_collapseSlashes : ∀ (l : List Char) (c : Char), c ∈ collapseSlashes l → c ∈ l
  | [], _, h => by simp [collapseSlashes] at h
  | [_], c, h => by simpa [collapseSlashes] using h
  | a :: b :: rest, c, h => by
    by_cases hd : a = '/' ∧ b = '/'
    · rw [collapseSlashes, if_pos hd] at h
      exact List.mem_cons_of_mem a (mem_collapseSlashes (b :: rest) c h)
    · rw [collapseSlashes, if_neg hd] at h
      rcases List.mem_cons.mp h with h1 | h1
      · simp [h1]
      · exact List.mem_cons_of_mem a (mem_collapseSlashes (b :: rest) c h1)

theorem normalizePath_idem (p : String) :
    normalizePath (normalizePath p) = normalizePath p := by
  unfold normalizePath
  have hmap : ∀ c ∈ collapseSlashes (p.data.map fun c => if c = '\\' then '/' else c),
      (if c = '\\' then '/' else c) = c := by
    intro c hc
    have := mem_collapseSlashes _ c hc
    rcases List.mem_map.mp this with ⟨x, _, hx⟩
    by_cases hxb : x = '\\'
    · rw [if_pos hxb] at hx
      rw [← hx]
      decide
    · rw [if_neg hxb] at hx
      rw [← hx, if_neg hxb]
  have : (collapseSlashes (p.data.map fun c => if c = '\\' then '/' else c)).map
      (fun c => if c = '\\' then '/' else c) =
      collapseSlashes (p.data.map fun c => if c = '\\' then '/' else c) := by
    calc _ = (collapseSlashes (p.data.map fun c => if c = '\\' then '/' else c)).map id :=
          List.map_congr_left hmap
      _ = _ := List.map_id _
  simp only [this]
  rw [collapseSlashes_idem]

/-! ## Shared lemmas: file-content frame properties of the store -/

/-- The content visible at an (already normalized) key of the store. -/
def readKey (fs : VFS) (k : String) : Option String :=
  (lookupEntry fs.files k).map FileEntry.content

/-- The content state visible through `getFile` at an arbitrary path. -/
def readContent (fs : VFS) (p : String) : Option String :=
  (fs.getFile p).map FileEntry.content

theorem readContent_eq_readKey (fs : VFS) (p : String) :
    readContent fs p = readKey fs (normalizePath p) := rfl

def NodupKeys (fs : VFS) : Prop := (fs.files.map Prod.fst).Nodup

theorem readKey_addFile_self (e : String → String → List SymbolInfo)
    (fs : VFS) (p c t : String) :
    readKey (fs.addFile e p c t) (normalizePath p) = some c := by
  simp [VFS.addFile, readKey, lookup_setEntry_self]

theorem readKey_addFile_ne (e : String → String → List SymbolInfo)
    (fs : VFS) (p c t q : String) (h : q ≠ normalizePath p) :
    readKey (fs.addFile e p c t) q = readKey fs q := by
  simp [VFS.addFile, readKey, lookup_setEntry_ne _ _ _ _ h]

theorem readKey_updateFile_self (e : String → String → List SymbolInfo)
    (fs : VFS) (p c : String) :
    readKey (fs.updateFile e p c) (normalizePath p) = some c := by
  unfold VFS.updateFile
  cases hl : lookupEntry fs.files (normalizePath p) with
  | some f => simp [readKey, hl, lookup_setEntry_self]
  | none =>
    simp only [hl]
    have := readKey_addFile_self e fs (normalizePath p) c "file"
    rwa [normalizePath_idem] at this

theorem readKey_updateFile_ne (e : String → String → List SymbolInfo)
    (fs : VFS) (p c q : String) (h : q ≠ normalizePath p) :
    readKey (fs.updateFile e p c) q = readKey fs q := by
  unfold VFS.updateFile
  cases hl : lookupEntry fs.files (normalizePath p) with
  | some f => simp [readKey, hl, lookup_setEntry_ne _ _ _ _ h]
  | none =>
    simp only [hl]
    exact readKey_addFile_ne e fs (normalizePath p) c "file" q
      (by rwa [normalizePath_idem])

theorem readKey_deleteFile_self (fs : VFS) (p : String) (h : NodupKeys fs) :
    readKey (fs.deleteFile p).1 (normalizePath p) = none := by
  unfold VFS.deleteFile
  cases hl : lookupEntry fs.files (normalizePath p) with
  | some f => simp [readKey, hl, lookup_removeEntry_self _ _ h]
  | none => simp [readKey, hl]

theorem readKey_deleteFile_ne (fs : VFS) (p q : String) (h : q ≠ normalizePath p) :
    readKey (fs.deleteFile p).1 q = readKey fs q := by
  unfold VFS.deleteFile
  cases hl : lookupEntry fs.files (normalizePath p) with
  | some f => simp [readKey, hl, lookup_removeEntry_ne _ _ _ h]
  | none => simp [hl]

theorem nodup_addFile (e : String → String → List SymbolInfo)
    (fs : VFS) (p c t : String) (h : NodupKeys fs) : NodupKeys (fs.addFile e p c t) :=
  keys_setEntry_nodup _ _ _ h

theorem nodup_updateFile (e : String → String → List SymbolInfo)
    (fs : VFS) (p c : String) (h : NodupKeys fs) : NodupKeys (fs.updateFile e p c) := by
  unfold VFS.updateFile
  cases hl : lookupEntry fs.files (normalizePath p) with
  | some f =>
    simp only [hl]
    exact keys_setEntry_nodup _ _ _ h
  | none =>
    simp only [hl]
    exact nodup_addFile e fs (normalizePath p) c "file" h

theorem nodup_deleteFile (fs : VFS) (p : String) (h : NodupKeys fs) :
    NodupKeys (fs.deleteFile p).1 := by
  unfold VFS.deleteFile
  cases hl : lookupEntry fs.files (normalizePath p) with
  | some f =>
    simp only [hl]
    exact keys_removeEntry_nodup _ _ h
  | none =>
    simp only [hl]
    exact h

theorem lookup_append {β : Type} (l1 l2 : List (String × β)) (k : String) :
    lookupEntry (l1 ++ l2) k =
      match lookupEntry l1 k with
      | some v => some v
      | none => lookupEntry l2 k := by
  induction l1 with
  | nil => simp [lookupEntry]
  | cons kv rest ih =>
    obtain ⟨k', v'⟩ := kv
    by_cases hk : k' = k
    · simp [lookupEntry, hk]
    · simp [lookupEntry, hk, ih]

/-! ## C10 -/

/-- A sample store used by several witnesses below. -/
def sampleStore : VFS := VFS.empty.addFile genericExtract "a.txt" "hi" "file"

/-- **C10.**  Frame effect of the store mutations: `updateFile`, `addFile`
and `deleteFile` leave the entry of every other path unchanged; `deleteFile`
removes exactly the entry at the normalization of its argument, and on an
absent path returns `false` with the store fully unchanged. -/
theorem vfs_mutation_frame (e : String → String → List SymbolInfo)
    (fs : VFS) (p c t q : String) (hq : q ≠ normalizePath p) :
    lookupEntry (fs.updateFile e p c).files q = lookupEntry fs.files q ∧
    lookupEntry (fs.addFile e p c t).files q = lookupEntry fs.files q ∧
    lookupEntry (fs.deleteFile p).1.files q = lookupEntry fs.files q ∧
    (NodupKeys fs → lookupEntry (fs.deleteFile p).1.files (normalizePath p) = none) ∧
    (lookupEntry fs.files (normalizePath p) = none → fs.deleteFile p = (fs, false)) := by
  refine ⟨?_, ?_, ?_, ?_, ?_⟩
  · unfold VFS.updateFile
    cases hl : lookupEntry fs.files (normalizePath p) with
    | some f => simp [hl, lookup_setEntry_ne _ _ _ _ hq]
    | none =>
      simp only [hl, VFS.addFile]
      rw [lookup_setEntry_ne _ _ _ _ (by rwa [normalizePath_idem])]
  · unfold VFS.addFile
    exact lookup_setEntry_ne _ _ _ _ hq
  · unfold VFS.deleteFile
    cases hl : lookupEntry fs.files (normalizePath p) with
    | some f => simp [hl, lookup_removeEntry_ne _ _ _ hq]
    | none => simp [hl]
  · intro hnd
    unfold VFS.deleteFile
    cases hl : lookupEntry fs.files (normalizePath p) with
    | some f => simp [hl, lookup_removeEntry_self _ _ hnd]
    | none => simp [hl]
  · intro habs
    unfold VFS.deleteFile
    simp [habs]

/-- Witness for `vfs_mutation_frame` at concrete inputs. -/
theorem vfs_mutation_frame_witness :
    lookupEntry (sampleStore.updateFile genericExtract "a.txt" "x").files "b.txt" =
      lookupEntry sampleStore.files "b.txt" ∧
    lookupEntry (sampleStore.deleteFile "a.txt").1.files (normalizePath "a.txt") = none ∧
    VFS.empty.deleteFile "missing.txt" = (VFS.empty, false) := by
  have h1 := vfs_mutation_frame genericExtract sampleStore "a.txt" "x" "file" "b.txt" (by decide)
  have h2 := vfs_mutation_frame genericExtract VFS.empty "missing.txt" "x" "file" "b.txt" (by decide)
  have hnd : (sampleStore.files.map Prod.fst).Nodup := by decide
  exact ⟨h1.1, h1.2.2.2.1 hnd, h2.2.2.2.2 (by decide)⟩

/-! ## C7 -/

/-- **C7.**  `create_file` is strict-create: on an existing path it fails
with the already-exists error (the store untouched, since the check precedes
every mutation), and concretely `create_file("a.txt", "hi")` followed by
`create_file("a.txt", "bye")` leaves the stored content `"hi"`. -/
theorem create_file_uniqueness :
    (∀ (e : String → String → List SymbolInfo) (s : SysState) (p c ft : String)
      (f : FileEntry), s.fs.getFile p = some f →
      createFileExecute e s p c ft = .error ("Failed to create file: File already exists: " ++ p ++
        ". Use write_file or edit_file to modify existing files.")) ∧
    (∃ s1, createFileExecute genericExtract ⟨VFS.empty, Tracker.empty⟩ "a.txt" "hi" "text" = .ok s1 ∧
      createFileExecute genericExtract s1 "a.txt" "bye" "text" =
        .error "Failed to create file: File already exists: a.txt. Use write_file or edit_file to modify existing files." ∧
      readContent s1.fs "a.txt" = some "hi") := by
  constructor
  · intro e s p c ft f hf
    unfold createFileExecute
    rw [hf]
  · exact ⟨_, rfl, by rfl, by rfl⟩

/-- Witness for `create_file_uniqueness` applying its general part at a
concrete state. -/
theorem create_file_uniqueness_witness :
    createFileExecute genericExtract ⟨sampleStore, Tracker.empty⟩ "a.txt" "bye" "text" =
      .error "Failed to create file: File already exists: a.txt. Use write_file or edit_file to modify existing files." :=
  create_file_uniqueness.1 genericExtract ⟨sampleStore, Tracker.empty⟩ "a.txt" "bye" "text"
    ⟨"a.txt", "hi", "file", 2⟩ rfl

/-! ## C6 -/

deriving instance DecidableEq for Except

/-- A store holding `a.txt` with content `"foo bar foo"`. -/
def fooStore : SysState :=
  ⟨VFS.empty.addFile genericExtract "a.txt" "foo bar foo" "file", Tracker.empty⟩

set_option maxRecDepth 4000 in
/-- **C6.**  `edit_file` fails when `old_content` does not occur verbatim,
fails (before any mutation) when it occurs more than once without
`replace_all`, and with `replace_all = true` replaces every occurrence:
on `"foo bar foo"`, replacing `"foo"` by `"baz"` yields `"baz bar baz"`
while the same call without `replace_all` fails. -/
theorem edit_file_guards :
    (∀ (e : String → String → List SymbolInfo) (s : SysState)
      (p old new : String) (ra : Bool) (f : FileEntry),
      s.fs.getFile p = some f → f.type ≠ "directory" →
      jsIncludes f.content old = false →
      editFileExecute e s p old new ra =
        .error "Failed to edit file: Content not found in file. Make sure the content matches exactly, including whitespace and line breaks.") ∧
    (∀ (e : String → String → List SymbolInfo) (s : SysState)
      (p old new : String) (f : FileEntry),
      s.fs.getFile p = some f → f.type ≠ "directory" →
      jsIncludes f.content old = true → 1 < countOccurrences f.content old →
      editFileExecute e s p old new false =
        .error ("Failed to edit file: Content appears " ++ toString (countOccurrences f.content old) ++
          " times in the file. Use replace_all: true to replace all occurrences, or provide more specific content to match only one occurrence.")) ∧
    (editFileExecute genericExtract fooStore "a.txt" "foo" "baz" true).map
      (fun s' => readContent s'.fs "a.txt") = .ok (some "baz bar baz") ∧
    editFileExecute genericExtract fooStore "a.txt" "foo" "baz" false =
      .error "Failed to edit file: Content appears 2 times in the file. Use replace_all: true to replace all occurrences, or provide more specific content to match only one occurrence." := by
  refine ⟨?_, ?_, by decide, by decide⟩
  · intro e s p old new ra f hf hdir hinc
    unfold editFileExecute
    rw [hf]
    simp [hdir, hinc]
  · intro e s p old new f hf hdir hinc hocc
    unfold editFileExecute
    rw [hf]
    simp [hdir, hinc, hocc]

/-- Witness for `edit_file_guards`, applying its guard clauses at concrete
states. -/
theorem edit_file_guards_witness :
    editFileExecute genericExtract fooStore "a.txt" "absent" "baz" false =
      .error "Failed to edit file: Content not found in file. Make sure the content matches exactly, including whitespace and line breaks." ∧
    editFileExecute genericExtract fooStore "a.txt" "foo" "qux" false =
      .error "Failed to edit file: Content appears 2 times in the file. Use replace_all: true to replace all occurrences, or provide more specific content to match only one occurrence." := by
  constructor
  · exact edit_file_guards.1 genericExtract fooStore "a.txt" "absent" "baz" false
      ⟨"a.txt", "foo bar foo", "file", 11⟩ rfl (by decide) (by decide)
  · exact edit_file_guards.2.1 genericExtract fooStore "a.txt" "foo" "qux"
      ⟨"a.txt", "foo bar foo", "file", 11⟩ rfl (by decide) (by decide) (by decide)

/-! ## C5 -/

set_option maxRecDepth 100000 in
/-- **C5 counterexample.**  With `maxContextChars = 1000` and two
700-character candidates, the remaining budget after the first file is
`300 ≤ 500`, so the trimmer emits no partial prefix of the second file at
all: the result is the first file alone, contradicting the claimed
`≥ 500`-character `_partial` inclusion. -/
theorem trim_budget_no_partial :
    trimContextToLimit 1000
      [⟨"a.txt", String.mk (List.replicate 700 'a'), 1, "keyword_match", []⟩,
       ⟨"b.txt", String.mk (List.replicate 700 'b'), 1, "keyword_match", []⟩] =
      [⟨"a.txt", String.mk (List.replicate 700 'a'), 1, "keyword_match", []⟩] := by
  rfl

/-- **C5 (amended).**  The trimmer accumulates files while they fit; at the
first file exceeding the remaining budget it appends a truncated prefix of
`remaining − 100` characters plus the truncation marker, with score `× 0.7`
and reason suffixed `_partial`, only when *strictly more than* 500
characters of budget remain, and stops; otherwise it stops without that
file.  (At `maxContextChars = 1000` with two 700-character files the second
branch applies, giving only the first file.) -/
theorem trimContext_partial_rule (f1 f2 : RelevantFile) (maxChars : Nat)
    (h1 : f1.content.length ≤ maxChars)
    (h2 : maxChars < f1.content.length + f2.content.length) :
    (500 < maxChars - f1.content.length →
      trimContextToLimit maxChars [f1, f2] =
        [f1, ⟨f2.path,
              strTake f2.content (maxChars - f1.content.length - 100) ++ "\n\n... [truncated]",
              f2.relevanceScore * (7 / 10), f2.reason ++ "_partial", f2.matchedLines⟩]) ∧
    (maxChars - f1.content.length ≤ 500 →
      trimContextToLimit maxChars [f1, f2] = [f1]) := by
  constructor
  · intro h3
    unfold trimContextToLimit trimContextLoop
    rw [if_pos (by omega)]
    unfold trimContextLoop
    rw [if_neg (by omega), if_pos (by omega)]
    simp
  · intro h3
    unfold trimContextToLimit trimContextLoop
    rw [if_pos (by omega)]
    unfold trimContextLoop
    rw [if_neg (by omega), if_neg (by omega)]

set_option maxRecDepth 100000 in
/-- Witness for `trimContext_partial_rule` at concrete inputs: budget 1300
takes a 416-character partial prefix of the second file; budget 1000 takes
none. -/
theorem trimContext_partial_rule_witness :
    trimContextToLimit 1300
      [⟨"a.txt", String.mk (List.replicate 700 'a'), 1, "keyword_match", []⟩,
       ⟨"b.txt", String.mk (List.replicate 700 'b'), 1, "keyword_match", []⟩] =
      [⟨"a.txt", String.mk (List.replicate 700 'a'), 1, "keyword_match", []⟩,
       ⟨"b.txt", strTake (String.mk (List.replicate 700 'b')) 500 ++ "\n\n... [truncated]",
        1 * (7 / 10), "keyword_match_partial", []⟩] ∧
    trimContextToLimit 1000
      [⟨"a.txt", String.mk (List.replicate 700 'a'), 1, "keyword_match", []⟩,
       ⟨"b.txt", String.mk (List.replicate 700 'b'), 1, "keyword_match", []⟩] =
      [⟨"a.txt", String.mk (List.replicate 700 'a'), 1, "keyword_match", []⟩] := by
  constructor
  · exact (trimContext_partial_rule
      ⟨"a.txt", String.mk (List.replicate 700 'a'), 1, "keyword_match", []⟩
      ⟨"b.txt", String.mk (List.replicate 700 'b'), 1, "keyword_match", []⟩
      1300 (by decide) (by decide)).1 (by decide)
  · exact (trimContext_partial_rule
      ⟨"a.txt", String.mk (List.replicate 700 'a'), 1, "keyword_match", []⟩
      ⟨"b.txt", String.mk (List.replicate 700 'b'), 1, "keyword_match", []⟩
      1000 (by decide) (by decide)).2 (by decide)

/-! ## C8 -/

/-- A declared parameter whose required argument is missing. -/
def isMissingViolation (args : List (String × JsValue)) (p : ToolParameter) : Bool :=
  p.required ∧ (lookupEntry args p.name).isNone

/-- A supplied argument violating its declared type. -/
def isTypeViolation (args : List (String × JsValue)) (p : ToolParameter) : Bool :=
  match lookupEntry args p.name with
  | some v => typeMismatch p.type v
  | none => false

/-- A supplied argument outside its declared enum. -/
def isEnumViolation (args : List (String × JsValue)) (p : ToolParameter) : Bool :=
  match lookupEntry args p.name, p.enum with
  | some v, some enumVals => ¬ enumVals.any fun w => jsStrictEq w v
  | _, _ => false

theorem paramErrors_length (args : List (String × JsValue)) (p : ToolParameter) :
    (paramErrors args p).length =
      (if isMissingViolation args p then 1 else 0) +
      (if isTypeViolation args p then 1 else 0) +
      (if isEnumViolation args p then 1 else 0) := by
  unfold paramErrors isMissingViolation isTypeViolation isEnumViolation
  cases hl : lookupEntry args p.name with
  | none =>
    cases hr : p.required <;> simp [hl, hr]
  | some v =>
    cases he : p.enum with
    | none =>
      by_cases ht : typeMismatch p.type v <;>
        cases hr : p.required <;>
          simp [hl, he, ht, hr]
    | some enumVals =>
      by_cases ht : typeMismatch p.type v <;>
        by_cases hev : enumVals.any (fun w => jsStrictEq w v) <;>
          cases hr : p.required <;>
            simp [hl, he, ht, hr, hev]

theorem validateArgs_cons (p : ToolParameter) (ps : List ToolParameter)
    (args : List (String × JsValue)) :
    validateArgs (p :: ps) args = paramErrors args p ++ validateArgs ps args := by
  unfold validateArgs
  simp only [List.foldl_cons, List.nil_append]
  generalize paramErrors args p = acc
  induction ps generalizing acc with
  | nil => simp
  | cons q qs ih =>
    simp only [List.foldl_cons, List.nil_append]
    rw [ih (acc ++ paramErrors args q), ih (paramErrors args q)]
    simp

/-- **C8.**  `validateArgs` collects every violation instead of failing on
the first: its error-list length is the number of missing required
parameters plus the number of type mismatches plus the number of enum
violations, and a call missing two required parameters with one wrong-typed
supplied parameter yields exactly the 3 error strings. -/
theorem validateArgs_collects_all :
    (∀ (params : List ToolParameter) (args : List (String × JsValue)),
      (validateArgs params args).length =
        params.countP (isMissingViolation args) +
        params.countP (isTypeViolation args) +
        params.countP (isEnumViolation args)) ∧
    validateArgs
      [⟨"file_path", "string", "", true, none⟩,
       ⟨"content", "number", "", true, none⟩,
       ⟨"confirm", "boolean", "", false, none⟩]
      [("confirm", .str "nope")] =
      ["Required parameter 'file_path' is missing",
       "Required parameter 'content' is missing",
       "Parameter 'confirm' must be a boolean"] := by
  constructor
  · intro params args
    induction params with
    | nil => simp [validateArgs]
    | cons p ps ih =>
      rw [validateArgs_cons]
      simp only [List.length_append, List.countP_cons, ih, paramErrors_length]
      omega
  · decide

/-! ## C9 -/

/-- **C9.**  `ToolRegistry.execute` is a total error boundary: it always
returns a structured `ToolResult`; an unregistered name yields the
unknown-tool failure, validation violations yield a failure bundling all
errors joined by `', '`, a tool-thrown error is caught as a failure with its
message, and `success = true` exactly when the tool was found, validated and
ran without throwing; every failure carries an error message and no result. -/
theorem registryExecute_boundary (tools : List (String × RegTool)) (call : ToolCall) :
    ((registryExecute tools call).success = true ↔
      ∃ tool, lookupEntry tools call.name = some tool ∧
        validateArgs tool.parameters call.arguments = [] ∧
        ∃ r, tool.run call.arguments = .ok r) ∧
    (lookupEntry tools call.name = none →
      registryExecute tools call = ⟨false, none, some ("Unknown tool: " ++ call.name)⟩) ∧
    (∀ tool, lookupEntry tools call.name = some tool →
      validateArgs tool.parameters call.arguments ≠ [] →
      registryExecute tools call = ⟨false, none,
        some ("Validation errors: " ++
          joinWith ", " (validateArgs tool.parameters call.arguments))⟩) ∧
    (∀ tool msg, lookupEntry tools call.name = some tool →
      validateArgs tool.parameters call.arguments = [] →
      tool.run call.arguments = .error msg →
      registryExecute tools call = ⟨false, none, some msg⟩) ∧
    ((registryExecute tools call).success = false →
      (registryExecute tools call).result = none ∧
      (registryExecute tools call).error.isSome) := by
  cases hl : lookupEntry tools call.name with
  | none =>
    have hres : registryExecute tools call =
        ⟨false, none, some ("Unknown tool: " ++ call.name)⟩ := by
      unfold registryExecute
      rw [hl]
    refine ⟨?_, fun _ => hres, ?_, ?_, ?_⟩
    · rw [hres]
      constructor
      · intro h
        simp at h
      · rintro ⟨tool', htool', -, -, -⟩
        cases htool'
    · intro tool htool
      cases htool
    · intro tool msg htool
      cases htool
    · intro _
      rw [hres]
      simp
  | some tool =>
    by_cases hv : validateArgs tool.parameters call.arguments = []
    · cases hrun : tool.run call.arguments with
      | error msg =>
        have hres : registryExecute tools call = ⟨false, none, some msg⟩ := by
          unfold registryExecute
          rw [hl]
          simp [hv, hrun]
        refine ⟨?_, ?_, ?_, ?_, ?_⟩
        · rw [hres]
          constructor
          · intro h
            simp at h
          · rintro ⟨tool', htool', hv', r, hr⟩
            injection htool' with he
            subst he
            rw [hrun] at hr
            cases hr
        · intro h
          cases h
        · intro tool' htool' hne
          injection htool' with he
          subst he
          exact absurd hv hne
        · intro tool' msg' htool' hv' hrun'
          injection htool' with he
          subst he
          rw [hrun] at hrun'
          injection hrun' with he'
          subst he'
          exact hres
        · intro _
          rw [hres]
          simp
      | ok r =>
        have hres : registryExecute tools call = ⟨true, some r, none⟩ := by
          unfold registryExecute
          rw [hl]
          simp [hv, hrun]
        refine ⟨?_, ?_, ?_, ?_, ?_⟩
        · rw [hres]
          simp only [true_iff]
          exact ⟨tool, rfl, hv, r, hrun⟩
        · intro h
          cases h
        · intro tool' htool' hne
          injection htool' with he
          subst he
          exact absurd hv hne
        · intro tool' msg' htool' hv' hrun'
          injection htool' with he
          subst he
          rw [hrun] at hrun'
          cases hrun'
        · intro h
          rw [hres] at h
          cases h
    · have hres : registryExecute tools call = ⟨false, none,
          some ("Validation errors: " ++
            joinWith ", " (validateArgs tool.parameters call.arguments))⟩ := by
        unfold registryExecute
        rw [hl]
        simp [hv]
      refine ⟨?_, ?_, ?_, ?_, ?_⟩
      · rw [hres]
        constructor
        · intro h
          simp at h
        · rintro ⟨tool', htool', hv', -, -⟩
          injection htool' with he
          subst he
          exact absurd hv' hv
      · intro h
        cases h
      · intro tool' htool' hne
        injection htool' with he
        subst he
        exact hres
      · intro tool' msg' htool' hv' hrun'
        injection htool' with he
        subst he
        exact absurd hv' hv
      · intro _
        rw [hres]
        simp

/-- A sample registry for the boundary witness: a string-echo tool with one
required parameter and a tool that always throws. -/
def echoTool : RegTool :=
  ⟨[⟨"file_path", "string", "", true, none⟩],
   fun args =>
     match lookupEntry args "file_path" with
     | some (.str s) => .ok s
     | _ => .error "boom"⟩

def throwTool : RegTool := ⟨[], fun _ => .error "kaboom"⟩

def sampleRegistry : List (String × RegTool) := [("echo", echoTool), ("throw", throwTool)]

/-- Witness for `registryExecute_boundary` exercising all four outcomes at
concrete calls. -/
theorem registryExecute_boundary_witness :
    registryExecute sampleRegistry ⟨"", "nope", []⟩ =
      ⟨false, none, some "Unknown tool: nope"⟩ ∧
    registryExecute sampleRegistry ⟨"", "echo", []⟩ =
      ⟨false, none, some "Validation errors: Required parameter 'file_path' is missing"⟩ ∧
    registryExecute sampleRegistry ⟨"", "throw", []⟩ = ⟨false, none, some "kaboom"⟩ ∧
    (registryExecute sampleRegistry ⟨"", "echo", [("file_path", .str "a.txt")]⟩).success = true := by
  refine ⟨?_, ?_, ?_, ?_⟩
  · exact (registryExecute_boundary sampleRegistry ⟨"", "nope", []⟩).2.1 rfl
  · exact ((registryExecute_boundary sampleRegistry ⟨"", "echo", []⟩).2.2.1
      echoTool rfl (by decide)).trans (by decide)
  · exact (registryExecute_boundary sampleRegistry ⟨"", "throw", []⟩).2.2.2.1
      throwTool "kaboom" rfl rfl rfl
  · exact (registryExecute_boundary sampleRegistry
      ⟨"", "echo", [("file_path", .str "a.txt")]⟩).1.mpr ⟨echoTool, rfl, rfl, "a.txt", rfl⟩

/-! ## C2 -/

/-- A store holding one file whose generic extraction yields the symbol
`f`. -/
def gStore : VFS := VFS.empty.addFile genericExtract "g.txt" "f(x) \x7b" "file"

/-- A store holding one file whose content contributes the token `hello`. -/
def hStore : VFS := VFS.empty.addFile genericExtract "a.txt" "hello world" "file"

set_option maxRecDepth 40000 in
/-- **C2 counterexample.**  The index is never cleaned: after adding
`a.txt` (content `"hello world"`) and deleting it, the store no longer has
the file, yet `searchContent` still returns `a.txt`; for a file whose
generic extraction produced the symbol `f`, `searchSymbols` still reports
that symbol after deletion; and after `updateFile` replaces that file's
content with `"hello"` (which extracts no symbols), the stale symbol `f`
is still visible to `searchSymbols`. -/
theorem deleteFile_stale_index :
    readContent ((VFS.empty.addFile genericExtract "a.txt" "hello world" "file").deleteFile
      "a.txt").1 "a.txt" = none ∧
    (searchContent ((VFS.empty.addFile genericExtract "a.txt" "hello world" "file").deleteFile
      "a.txt").1.index "hello" {}).map (fun r => r.filePath) = ["a.txt"] ∧
    readContent (gStore.deleteFile "g.txt").1 "g.txt" = none ∧
    (searchSymbols (gStore.deleteFile "g.txt").1.index "f").map
      (fun s => (s.name, s.filePath)) = [("f", "g.txt")] ∧
    readContent (gStore.updateFile genericExtract "g.txt" "hello") "g.txt" = some "hello" ∧
    genericExtract (normalizePath "g.txt") "hello" = [] ∧
    (searchSymbols (gStore.updateFile genericExtract "g.txt" "hello").index "f").map
      (fun s => (s.name, s.filePath)) = [("f", "g.txt")] := by
  refine ⟨by decide, by decide, by decide, by decide, by decide, by decide, by decide⟩

/-! ## C4 -/

/-- Membership of a file path in the token set of a token. -/
def tokenHas (ti : List (String × List String)) (t fp : String) : Prop :=
  fp ∈ (lookupEntry ti t).getD []

theorem mem_addToSet_self (s : List String) (x : String) : x ∈ addToSet s x := by
  unfold addToSet
  by_cases h : x ∈ s <;> simp [h]

theorem mem_addToSet_of_mem (s : List String) (x y : String) (h : y ∈ s) :
    y ∈ addToSet s x := by
  unfold addToSet
  by_cases hx : x ∈ s <;> simp [hx, h]

theorem addToSet_of_mem (s : List String) (x : String) (h : x ∈ s) :
    addToSet s x = s := by
  unfold addToSet
  simp [h]

theorem tokenHas_addTokenPath_self (ti : List (String × List String)) (t fp : String) :
    tokenHas (addTokenPath ti t fp) t fp := by
  unfold tokenHas addTokenPath
  cases hl : lookupEntry ti t with
  | some paths =>
    rw [lookup_setEntry_self]
    exact mem_addToSet_self paths fp
  | none =>
    rw [lookup_append, hl]
    simp [lookupEntry]

theorem tokenHas_addTokenPath_mono (ti : List (String × List String))
    (t fp t' fp' : String) (h : tokenHas ti t' fp') :
    tokenHas (addTokenPath ti t fp) t' fp' := by
  unfold tokenHas at h ⊢
  cases hl : lookupEntry ti t' with
  | none => rw [hl] at h; simp at h
  | some paths =>
    rw [hl] at h
    simp only [Option.getD_some] at h
    unfold addTokenPath
    by_cases ht : t' = t
    · subst ht
      rw [hl, lookup_setEntry_self]
      simpa using mem_addToSet_of_mem _ _ _ h
    · cases hl2 : lookupEntry ti t with
      | some paths2 =>
        rw [lookup_setEntry_ne _ _ _ _ ht, hl]
        simpa using h
      | none =>
        rw [lookup_append, hl]
        simpa using h

theorem addTokenPath_of_tokenHas (ti : List (String × List String)) (t fp : String)
    (h : tokenHas ti t fp) : addTokenPath ti t fp = ti := by
  unfold tokenHas at h
  cases hl : lookupEntry ti t with
  | none => rw [hl] at h; simp at h
  | some paths =>
    rw [hl] at h
    simp only [Option.getD_some] at h
    unfold addTokenPath
    rw [hl]
    show setEntry ti t (addToSet paths fp) = ti
    rw [addToSet_of_mem _ _ h]
    exact setEntry_of_lookup_eq _ _ _ hl

theorem tokenHas_tokenFold_mono (fp : String) :
    ∀ (tokens : List String) (ti : List (String × List String)) (t' fp' : String),
      tokenHas ti t' fp' →
      tokenHas (tokens.foldl (fun ti t => addTokenPath ti t fp) ti) t' fp'
  | [], _, _, _, h => h
  | tk :: rest, ti, t', fp', h => by
    simp only [List.foldl_cons]
    exact tokenHas_tokenFold_mono fp rest _ t' fp'
      (tokenHas_addTokenPath_mono _ _ _ _ _ h)

theorem tokenHas_tokenFold_self (fp : String) :
    ∀ (tokens : List String) (ti : List (String × List String)) (t : String),
      t ∈ tokens →
      tokenHas (tokens.foldl (fun ti t => addTokenPath ti t fp) ti) t fp
  | [], _, _, h => absurd h (by simp)
  | tk :: rest, ti, t, h => by
    simp only [List.foldl_cons]
    rcases List.mem_cons.mp h with h1 | h1
    · subst h1
      exact tokenHas_tokenFold_mono fp rest _ t fp (tokenHas_addTokenPath_self ti t fp)
    · exact tokenHas_tokenFold_self fp rest _ t h1

theorem tokenFold_of_tokenHas (fp : String) :
    ∀ (tokens : List String) (ti : List (String × List String)),
      (∀ t ∈ tokens, tokenHas ti t fp) →
      tokens.foldl (fun ti t => addTokenPath ti t fp) ti = ti
  | [], _, _ => rfl
  | tk :: rest, ti, h => by
    simp only [List.foldl_cons]
    rw [addTokenPath_of_tokenHas ti tk fp (h tk (by simp))]
    exact tokenFold_of_tokenHas fp rest ti fun t ht => h t (by simp [ht])

theorem tokenHas_addLineTokens_mono (fp : String) :
    ∀ (lis : List LineInfo) (ti : List (String × List String)) (t' fp' : String),
      tokenHas ti t' fp' → tokenHas (addLineTokens fp ti lis) t' fp'
  | [], _, _, _, h => h
  | li :: rest, ti, t', fp', h => by
    unfold addLineTokens
    simp only [List.foldl_cons]
    exact tokenHas_addLineTokens_mono fp rest _ t' fp'
      (tokenHas_tokenFold_mono fp li.tokens ti t' fp' h)

theorem tokenHas_addLineTokens_all (fp : String) :
    ∀ (lis : List LineInfo) (ti : List (String × List String)),
      ∀ li ∈ lis, ∀ t ∈ li.tokens, tokenHas (addLineTokens fp ti lis) t fp
  | [], _, li, h => absurd h (by simp)
  | li0 :: rest, ti, li, hli => by
    intro t ht
    unfold addLineTokens
    simp only [List.foldl_cons]
    rcases List.mem_cons.mp hli with h1 | h1
    · subst h1
      exact tokenHas_addLineTokens_mono fp rest _ t fp
        (tokenHas_tokenFold_self fp li.tokens ti t ht)
    · exact tokenHas_addLineTokens_all fp rest _ li h1 t ht

theorem addLineTokens_of_tokenHas (fp : String) :
    ∀ (lis : List LineInfo) (ti : List (String × List String)),
      (∀ li ∈ lis, ∀ t ∈ li.tokens, tokenHas ti t fp) →
      addLineTokens fp ti lis = ti
  | [], _, _ => rfl
  | li :: rest, ti, h => by
    unfold addLineTokens
    simp only [List.foldl_cons]
    rw [tokenFold_of_tokenHas fp li.tokens ti (h li (by simp))]
    exact addLineTokens_of_tokenHas fp rest ti fun li' hli' t ht => h li' (by simp [hli']) t ht

theorem addLineTokens_idem (fp : String) (lis : List LineInfo)
    (ti : List (String × List String)) :
    addLineTokens fp (addLineTokens fp ti lis) lis = addLineTokens fp ti lis :=
  addLineTokens_of_tokenHas fp lis _ (tokenHas_addLineTokens_all fp lis ti)

theorem mem_lookup_addSymbol (si : List (String × List SymbolInfo))
    (s0 : SymbolInfo) (n : String) (s : SymbolInfo)
    (h : s ∈ (lookupEntry si n).getD []) :
    s ∈ (lookupEntry (addSymbol si s0) n).getD [] := by
  unfold addSymbol
  cases hl : lookupEntry si s0.name with
  | some syms =>
    by_cases hn : n = s0.name
    · subst hn
      rw [hl] at h
      rw [lookup_setEntry_self]
      simp only [Option.getD_some] at h ⊢
      exact List.mem_append.mpr (Or.inl h)
    · rw [lookup_setEntry_ne _ _ _ _ hn]
      exact h
  | none =>
    rw [lookup_append]
    cases hq : lookupEntry si n with
    | some v =>
      rw [hq] at h
      exact h
    | none =>
      rw [hq] at h
      simp at h

theorem mem_lookup_addSymbols (syms : List SymbolInfo) :
    ∀ (si : List (String × List SymbolInfo)) (n : String) (s : SymbolInfo),
      s ∈ (lookupEntry si n).getD [] →
      s ∈ (lookupEntry (addSymbols si syms) n).getD [] := by
  induction syms with
  | nil =>
    intro si n s h
    exact h
  | cons x xs ih =>
    intro si n s h
    show s ∈ (lookupEntry (addSymbols (addSymbol si x) xs) n).getD []
    exact ih (addSymbol si x) n s (mem_lookup_addSymbol si x n s h)

/-- Under the amended-claim hypotheses, `updateFile` re-indexes through
`indexFile` at the normalized path (in both its branches). -/
theorem updateFile_index (e : String → String → List SymbolInfo)
    (fs : VFS) (p c : String)
    (h : (lookupEntry fs.files (normalizePath p)).isSome ∨ c ≠ "") :
    (fs.updateFile e p c).index = indexFile e fs.index (normalizePath p) c := by
  unfold VFS.updateFile
  cases hl : lookupEntry fs.files (normalizePath p) with
  | some f => simp only [hl]
  | none =>
    rcases h with h | h
    · rw [hl] at h
      exact absurd h (by decide)
    · simp only [hl, VFS.addFile]
      split
      · rw [normalizePath_idem]
      · rename_i hcond
        exact absurd (And.intro trivial h) hcond

/-- **C2 (amended).**  Only the *line index* is kept consistent by a
mutating operation: after `updateFile` (and the `addFile` it falls back
to) the line index for the mutated path is exactly the line records of the
new content, but the token index and the symbol index are append-only —
every token set and every symbol entry present before the update is still
present after it, so stale tokens and stale symbols of the previous
content survive `updateFile` — and `deleteFile` leaves the whole index
untouched, so every stale entry of a deleted path stays visible to
`searchContent`/`searchSymbols`. -/
theorem index_update_consistency (e : String → String → List SymbolInfo)
    (fs : VFS) (p c : String)
    (h : (lookupEntry fs.files (normalizePath p)).isSome ∨ c ≠ "") :
    lookupEntry (fs.updateFile e p c).index.lineIndex (normalizePath p) =
      some (lineInfosOf c) ∧
    (∀ t fp', tokenHas fs.index.tokenIndex t fp' →
      tokenHas (fs.updateFile e p c).index.tokenIndex t fp') ∧
    (∀ n s, s ∈ (lookupEntry fs.index.symbolIndex n).getD [] →
      s ∈ (lookupEntry (fs.updateFile e p c).index.symbolIndex n).getD []) ∧
    ∀ (fs' : VFS) (q : String), (fs'.deleteFile q).1.index = fs'.index := by
  rw [updateFile_index e fs p c h]
  refine ⟨?_, ?_, ?_, ?_⟩
  · show lookupEntry (setEntry fs.index.lineIndex (normalizePath p) (lineInfosOf c))
      (normalizePath p) = some (lineInfosOf c)
    exact lookup_setEntry_self _ _ _
  · intro t fp' ht
    exact tokenHas_addLineTokens_mono (normalizePath p) (lineInfosOf c)
      fs.index.tokenIndex t fp' ht
  · intro n s hs
    exact mem_lookup_addSymbols (e (normalizePath p) c) fs.index.symbolIndex n s hs
  · intro fs' q
    unfold VFS.deleteFile
    cases hl : lookupEntry fs'.files (normalizePath q) with
    | some f => simp [hl]
    | none => simp [hl]

set_option maxRecDepth 40000 in
/-- Witness for `index_update_consistency` at concrete updates: the line
index reflects the new content, a stale token (`hello`) and a stale symbol
(`f`) of the previous content survive the update, and a concrete delete
leaves the index untouched. -/
theorem index_update_consistency_witness :
    lookupEntry (gStore.updateFile genericExtract "g.txt" "hello").index.lineIndex
      (normalizePath "g.txt") = some (lineInfosOf "hello") ∧
    tokenHas (hStore.updateFile genericExtract "a.txt" "zzz").index.tokenIndex
      "hello" "a.txt" ∧
    (⟨"f", "function", "g.txt", 1, 0, "f(x) \x7b"⟩ : SymbolInfo) ∈
      (lookupEntry (gStore.updateFile genericExtract "g.txt" "hello").index.symbolIndex
        "f").getD [] ∧
    (sampleStore.deleteFile "a.txt").1.index = sampleStore.index :=
  ⟨(index_update_consistency genericExtract gStore "g.txt" "hello"
      (Or.inr (by decide))).1,
   (index_update_consistency genericExtract hStore "a.txt" "zzz"
      (Or.inr (by decide))).2.1 "hello" "a.txt"
     (by decide : "a.txt" ∈ (lookupEntry hStore.index.tokenIndex "hello").getD []),
   (index_update_consistency genericExtract gStore "g.txt" "hello"
      (Or.inr (by decide))).2.2.1 "f" ⟨"f", "function", "g.txt", 1, 0, "f(x) \x7b"⟩
     (by decide),
   (index_update_consistency genericExtract gStore "g.txt" "hello"
      (Or.inr (by decide))).2.2.2 sampleStore "a.txt"⟩

set_option maxRecDepth 40000 in
/-- **C4 counterexample.**  Indexing the same unchanged content twice
duplicates the extracted symbols: after one pass over `g.txt` (content
`"f(x) {"`, via the generic extractor the source dispatches to for a `txt`
extension) the symbol list of `f` has one entry, after a second identical
pass it has two, and both copies are visible to `searchSymbols`. -/
theorem reindex_duplicates_symbols :
    (lookupEntry (indexFile genericExtract FileIndexSt.empty "g.txt"
      "f(x) \x7b").symbolIndex "f").map List.length = some 1 ∧
    (lookupEntry (indexFile genericExtract (indexFile genericExtract FileIndexSt.empty "g.txt"
      "f(x) \x7b") "g.txt" "f(x) \x7b").symbolIndex "f").map List.length = some 2 ∧
    (searchSymbols (indexFile genericExtract (indexFile genericExtract FileIndexSt.empty "g.txt"
      "f(x) \x7b") "g.txt" "f(x) \x7b") "f").length = 2 := by
  refine ⟨by decide, by decide, by decide⟩

/-- **C4 (amended).**  Re-indexing the same unchanged content is idempotent
on the token index (set semantics absorb the duplicate insertions) and on
the line index (the per-path entry is replaced), but the symbol index
appends a second copy of every extracted symbol instead of replacing the
previous ones. -/
theorem indexFile_reindex_shape (extract : String → String → List SymbolInfo)
    (idx : FileIndexSt) (p c : String) :
    indexFile extract (indexFile extract idx p c) p c =
      { indexFile extract idx p c with
        symbolIndex := addSymbols (indexFile extract idx p c).symbolIndex (extract p c) } := by
  unfold indexFile
  simp only [FileIndexSt.mk.injEq]
  refine ⟨addLineTokens_idem _ _ _, setEntry_setEntry_same _ _ _ _, ?_⟩
  trivial

/-! ## C3 -/

theorem mem_insertByDesc {α : Type} (key : α → Rat) (a x : α) (l : List α) :
    x ∈ insertByDesc key a l ↔ x = a ∨ x ∈ l := by
  induction l with
  | nil => simp [insertByDesc]
  | cons b bs ih =>
    unfold insertByDesc
    by_cases hc : key a < key b
    · rw [if_pos hc]
      simp only [List.mem_cons, ih]
      tauto
    · rw [if_neg hc]
      simp only [List.mem_cons]

theorem mem_sortByDesc {α : Type} (key : α → Rat) (x : α) (l : List α) :
    x ∈ sortByDesc key l ↔ x ∈ l := by
  induction l with
  | nil => simp [sortByDesc]
  | cons b bs ih =>
    show x ∈ insertByDesc key b (sortByDesc key bs) ↔ _
    rw [mem_insertByDesc, ih]
    simp

theorem pairwise_insertByDesc {α : Type} (key : α → Rat) (a : α) (l : List α)
    (h : List.Pairwise (fun x y => key y ≤ key x) l) :
    List.Pairwise (fun x y => key y ≤ key x) (insertByDesc key a l) := by
  induction l with
  | nil => simp [insertByDesc]
  | cons b bs ih =>
    rw [List.pairwise_cons] at h
    unfold insertByDesc
    by_cases hc : key a < key b
    · rw [if_pos hc, List.pairwise_cons]
      refine ⟨fun x hx => ?_, ih h.2⟩
      rcases (mem_insertByDesc key a x bs).mp hx with h1 | h1
      · subst h1
        exact le_of_lt hc
      · exact h.1 x h1
    · rw [if_neg hc, List.pairwise_cons]
      refine ⟨fun x hx => ?_, List.pairwise_cons.mpr ⟨h.1, h.2⟩⟩
      rcases List.mem_cons.mp hx with h1 | h1
      · subst h1
        exact not_lt.mp hc
      · exact le_trans (h.1 x h1) (not_lt.mp hc)

theorem sortByDesc_pairwise {α : Type} (key : α → Rat) (l : List α) :
    List.Pairwise (fun x y => key y ≤ key x) (sortByDesc key l) := by
  induction l with
  | nil => simp [sortByDesc]
  | cons b bs ih => exact pairwise_insertByDesc key b _ ih

theorem sortByDesc_head_max {α : Type} (key : α → Rat) (a : α) (l : List α)
    (hmax : ∀ x ∈ l, key x ≤ key a) :
    (sortByDesc key (a :: l)).head? = some a := by
  show (insertByDesc key a (sortByDesc key l)).head? = some a
  cases hs : sortByDesc key l with
  | nil => simp [insertByDesc]
  | cons b bs =>
    have hb : b ∈ l := (mem_sortByDesc key b l).mp (by rw [hs]; simp)
    unfold insertByDesc
    rw [if_neg (not_lt.mpr (hmax b hb))]
    simp

theorem addDirect_extends (fs : VFS) (acc : GatherAcc) (target : String) :
    ∃ ext, (addDirect fs acc target).files = acc.files ++ ext ∧
      ∀ f ∈ ext, f.reason = "directly_mentioned" ∧ f.relevanceScore = 1 := by
  unfold addDirect
  by_cases hs : target ∈ acc.seen
  · exact ⟨[], by simp [hs], by simp⟩
  · rw [if_neg hs]
    cases hf : fs.getFile target with
    | some file =>
      refine ⟨[⟨target, file.content, 1, "directly_mentioned", []⟩], rfl, ?_⟩
      intro f hf'
      rcases List.mem_singleton.mp hf' with rfl
      exact ⟨rfl, rfl⟩
    | none => exact ⟨[], by simp, by simp⟩

theorem stage1_extends (fs : VFS) :
    ∀ (targets : List String) (acc : GatherAcc),
      ∃ ext, (targets.foldl (addDirect fs) acc).files = acc.files ++ ext ∧
        ∀ f ∈ ext, f.reason = "directly_mentioned" ∧ f.relevanceScore = 1
  | [], acc => ⟨[], by simp, by simp⟩
  | t :: ts, acc => by
    simp only [List.foldl_cons]
    obtain ⟨ext1, he1, hp1⟩ := addDirect_extends fs acc t
    obtain ⟨ext2, he2, hp2⟩ := stage1_extends fs ts (addDirect fs acc t)
    refine ⟨ext1 ++ ext2, by rw [he2, he1, List.append_assoc], ?_⟩
    intro f hf
    rcases List.mem_append.mp hf with h | h
    · exact hp1 f h
    · exact hp2 f h

theorem addKeywordResults_extends (fs : VFS) (maxFiles : Nat) :
    ∀ (results : List FileSearchResult) (acc : GatherAcc),
      ∃ ext, (addKeywordResults fs maxFiles results acc).files = acc.files ++ ext ∧
        ∀ f ∈ ext, f.reason = "keyword_match"
  | [], acc => ⟨[], by simp [addKeywordResults], by simp⟩
  | r :: rest, acc => by
    unfold addKeywordResults
    by_cases hb : r.filePath ∈ acc.seen ∨ maxFiles ≤ acc.files.length
    · rw [if_pos hb]
      exact ⟨[], by simp, by simp⟩
    · rw [if_neg hb]
      cases hf : fs.getFile r.filePath with
      | some file =>
        obtain ⟨ext, he, hp⟩ := addKeywordResults_extends fs maxFiles rest
          ⟨acc.files ++ [⟨r.filePath, file.content, r.score * (4 / 5),
            "keyword_match", r.matchedLines⟩], acc.seen ++ [r.filePath]⟩
        refine ⟨⟨r.filePath, file.content, r.score * (4 / 5),
          "keyword_match", r.matchedLines⟩ :: ext, ?_, ?_⟩
        · rw [he]
          simp
        · intro f hf'
          rcases List.mem_cons.mp hf' with rfl | h
          · rfl
          · exact hp f h
      | none => exact addKeywordResults_extends fs maxFiles rest acc

theorem stage2_extends (fs : VFS) (maxFiles : Nat) (opts : SearchOptions) :
    ∀ (keywords : List String) (acc : GatherAcc),
      ∃ ext, ((keywords.foldl
          (fun acc keyword => addKeywordResults fs maxFiles (fs.searchFiles keyword opts) acc)
          acc).files) = acc.files ++ ext ∧
        ∀ f ∈ ext, f.reason = "keyword_match"
  | [], acc => ⟨[], by simp, by simp⟩
  | kw :: rest, acc => by
    simp only [List.foldl_cons]
    obtain ⟨ext1, he1, hp1⟩ := addKeywordResults_extends fs maxFiles (fs.searchFiles kw opts) acc
    obtain ⟨ext2, he2, hp2⟩ := stage2_extends fs maxFiles opts rest
      (addKeywordResults fs maxFiles (fs.searchFiles kw opts) acc)
    refine ⟨ext1 ++ ext2, by rw [he2, he1, List.append_assoc], ?_⟩
    intro f hf
    rcases List.mem_append.mp hf with h | h
    · exact hp1 f h
    · exact hp2 f h

theorem findRelatedFiles_inv (fs : VFS) (fromFile : Option String) :
    ∀ (imports : List String) (acc : List RelevantFile),
      (∀ f ∈ acc, f.reason = "dependency" ∧ f.relevanceScore = 3 / 5) →
      ∀ f ∈ imports.foldl
        (fun relatedFiles importPath =>
          if 3 ≤ relatedFiles.length then relatedFiles
          else
            match resolveImport fs importPath fromFile with
            | some resolvedPath =>
              match fs.getFile resolvedPath with
              | some file =>
                relatedFiles ++ [⟨resolvedPath, file.content, 3 / 5, "dependency", []⟩]
              | none => relatedFiles
            | none => relatedFiles) acc,
        f.reason = "dependency" ∧ f.relevanceScore = 3 / 5
  | [], acc, hacc => hacc
  | imp :: rest, acc, hacc => by
    simp only [List.foldl_cons]
    apply findRelatedFiles_inv fs fromFile rest
    intro f hf'
    by_cases hlen : 3 ≤ acc.length
    · rw [if_pos hlen] at hf'
      exact hacc f hf'
    · rw [if_neg hlen] at hf'
      split at hf'
      · split at hf'
        · rcases List.mem_append.mp hf' with h | h
          · exact hacc f h
          · rcases List.mem_singleton.mp h with rfl
            exact ⟨rfl, rfl⟩
        · exact hacc f hf'
      · exact hacc f hf' 

theorem findRelatedFiles_shape (fs : VFS) (l : List RelevantFile) :
    ∀ f ∈ findRelatedFiles fs l, f.reason = "dependency" ∧ f.relevanceScore = 3 / 5 := by
  unfold findRelatedFiles
  exact findRelatedFiles_inv fs _ _ [] (by simp)

theorem addRelated_extends (maxFiles : Nat) :
    ∀ (rfs : List RelevantFile) (acc : GatherAcc),
      ∃ ext, (addRelated maxFiles rfs acc).files = acc.files ++ ext ∧
        ∀ f ∈ ext, f ∈ rfs
  | [], acc => ⟨[], by simp [addRelated], by simp⟩
  | rf :: rest, acc => by
    unfold addRelated
    by_cases hb : rf.path ∈ acc.seen ∨ maxFiles ≤ acc.files.length
    · rw [if_pos hb]
      exact ⟨[], by simp, by simp⟩
    · rw [if_neg hb]
      obtain ⟨ext, he, hp⟩ := addRelated_extends maxFiles rest
        ⟨acc.files ++ [rf], acc.seen ++ [rf.path]⟩
      refine ⟨rf :: ext, by rw [he]; simp, ?_⟩
      intro f hf
      rcases List.mem_cons.mp hf with rfl | h
      · simp
      · simp [hp f h]

/-- The store of the C3 counterexample: a directly mentionable `auth.txt`
and a `bug.txt` whose content matches the keyword `bug` heavily. -/
def rankStore : VFS :=
  (VFS.empty.addFile genericExtract "auth.txt" "x" "file").addFile genericExtract
    "bug.txt" "bug bug bug bug" "file"

def rankIntent : UserIntent :=
  { targetFiles := ["auth.txt"], keywords := ["bug"] }

section

attribute [local semireducible] Rat.mul Rat.inv Rat.add Rat.sub

set_option maxRecDepth 100000 in
/-- **C3 counterexample.**  The final ranking is purely by relevance score:
`bug.txt` gets raw content-search score `6.85`, hence keyword score
`6.85 × 0.8 = 5.48 > 1.0`, and is ranked ahead of the directly mentioned
`auth.txt` (score `1.0`), so `relevantFiles[0].reason` is `keyword_match`
even though the prompt names an existing file. -/
theorem keyword_outranks_direct :
    "auth.txt" ∈ rankIntent.targetFiles ∧
    (rankStore.getFile "auth.txt").isSome ∧
    (findRelevantFiles rankStore rankIntent 2).map (fun f => (f.path, f.reason)) =
      [("bug.txt", "keyword_match"), ("auth.txt", "directly_mentioned")] ∧
    (findRelevantFiles rankStore rankIntent 2).map (fun f => f.relevanceScore) =
      [137 / 25, 1] := by
  refine ⟨by decide, by decide, by decide, by decide⟩

end

theorem gatherStage2_shape (fs : VFS) (intent : UserIntent) (maxFiles : Nat)
    (acc1 : GatherAcc) :
    ∃ ext, (gatherStage2 fs intent maxFiles acc1).files = acc1.files ++ ext ∧
      ∀ f ∈ ext, f.reason = "keyword_match" := by
  unfold gatherStage2
  by_cases hc : intent.keywords ≠ [] ∧ acc1.files.length < maxFiles
  · rw [if_pos hc]
    exact stage2_extends fs maxFiles _ (intent.keywords.take 3) acc1
  · rw [if_neg hc]
    exact ⟨[], by simp, by simp⟩

theorem gatherStage3_shape (fs : VFS) (maxFiles : Nat) (acc2 : GatherAcc) :
    ∃ ext, (gatherStage3 fs maxFiles acc2).files = acc2.files ++ ext ∧
      ∀ f ∈ ext, f.reason = "dependency" := by
  unfold gatherStage3
  by_cases hc : 0 < acc2.files.length ∧ acc2.files.length < maxFiles
  · rw [if_pos hc]
    obtain ⟨ext, he, hp⟩ := addRelated_extends maxFiles (findRelatedFiles fs acc2.files) acc2
    exact ⟨ext, he, fun f hf => (findRelatedFiles_shape fs acc2.files f (hp f hf)).1⟩
  · rw [if_neg hc]
    exact ⟨[], by simp, by simp⟩

/-- **C3 (amended).**  `findRelevantFiles` ranks the selected files solely
by descending `relevanceScore` (stable): the output is sorted descending;
every `directly_mentioned` entry carries score exactly `1.0`; and whenever
some directly-mentioned file was selected *and* every other selected file
has score at most `1.0` (equivalently, every keyword raw score is at most
`1.25`), the top-ranked file is a directly-mentioned one.  A keyword match
whose raw score exceeds `1.25` overtakes the directly-mentioned files, as
the counterexample shows. -/
theorem findRelevantFiles_ranking (fs : VFS) (intent : UserIntent) (maxFiles : Nat) :
    List.Pairwise (fun a b => b.relevanceScore ≤ a.relevanceScore)
      (findRelevantFiles fs intent maxFiles) ∧
    (∀ f ∈ findRelevantFiles fs intent maxFiles,
      f.reason = "directly_mentioned" → f.relevanceScore = 1) ∧
    ((∃ f ∈ findRelevantFiles fs intent maxFiles, f.reason = "directly_mentioned") →
     (∀ f ∈ findRelevantFiles fs intent maxFiles,
       f.reason ≠ "directly_mentioned" → f.relevanceScore ≤ 1) →
     ∃ f0, (findRelevantFiles fs intent maxFiles).head? = some f0 ∧
       f0.reason = "directly_mentioned" ∧ f0.relevanceScore = 1) := by
  obtain ⟨ext1, he1, hp1⟩ := stage1_extends fs intent.targetFiles ⟨[], []⟩
  obtain ⟨ext2, he2, hp2⟩ := gatherStage2_shape fs intent maxFiles (gatherStage1 fs intent)
  obtain ⟨ext3, he3, hp3⟩ :=
    gatherStage3_shape fs maxFiles (gatherStage2 fs intent maxFiles (gatherStage1 fs intent))
  have hL : (gatherStage3 fs maxFiles
      (gatherStage2 fs intent maxFiles (gatherStage1 fs intent))).files =
      ext1 ++ (ext2 ++ ext3) := by
    rw [he3, he2]
    unfold gatherStage1
    rw [he1]
    simp [List.append_assoc]
  have hmem : ∀ f ∈ findRelevantFiles fs intent maxFiles, f ∈ ext1 ++ (ext2 ++ ext3) := by
    intro f hf
    rw [← hL]
    exact (mem_sortByDesc _ f _).mp hf
  have hclass : ∀ f ∈ ext1 ++ (ext2 ++ ext3),
      (f.reason = "directly_mentioned" ∧ f.relevanceScore = 1) ∨
      f.reason = "keyword_match" ∨ f.reason = "dependency" := by
    intro f hf
    rcases List.mem_append.mp hf with h | h
    · exact Or.inl (hp1 f h)
    · rcases List.mem_append.mp h with h | h
      · exact Or.inr (Or.inl (hp2 f h))
      · exact Or.inr (Or.inr (hp3 f h))
  refine ⟨?_, ?_, ?_⟩
  · exact sortByDesc_pairwise _ _
  · intro f hf hdir
    rcases hclass f (hmem f hf) with h | h | h
    · exact h.2
    · exact absurd (hdir.symm.trans h) (by decide)
    · exact absurd (hdir.symm.trans h) (by decide)
  · intro h1 h2
    obtain ⟨fd, hfd, hfdir⟩ := h1
    -- the pre-sort list must start with a directly-mentioned entry
    have hne : ext1 ≠ [] := by
      intro hnil
      have hfd' : fd ∈ ext1 ++ (ext2 ++ ext3) := hmem fd hfd
      rw [hnil, List.nil_append] at hfd'
      rcases List.mem_append.mp hfd' with hm | hm
      · exact absurd (hfdir.symm.trans (hp2 fd hm)) (by decide)
      · exact absurd (hfdir.symm.trans (hp3 fd hm)) (by decide)
    obtain ⟨a, rest1, rfl⟩ := List.exists_cons_of_ne_nil hne
    have ha : a.reason = "directly_mentioned" ∧ a.relevanceScore = 1 :=
      hp1 a (by simp)
    have hmax : ∀ x ∈ rest1 ++ (ext2 ++ ext3), x.relevanceScore ≤ a.relevanceScore := by
      intro x hx
      have hxL : x ∈ (a :: rest1) ++ (ext2 ++ ext3) := by
        rcases List.mem_append.mp hx with h | h
        · exact List.mem_append.mpr (Or.inl (by simp [h]))
        · exact List.mem_append.mpr (Or.inr h)
      have hxR : x ∈ findRelevantFiles fs intent maxFiles := by
        unfold findRelevantFiles
        rw [hL]
        exact (mem_sortByDesc _ x _).mpr hxL
      rw [ha.2]
      rcases hclass x hxL with h | h | h
      · rw [h.2]
      · exact h2 x hxR (by rw [h]; decide)
      · exact h2 x hxR (by rw [h]; decide)
    refine ⟨a, ?_, ha.1, ha.2⟩
    unfold findRelevantFiles
    rw [hL]
    exact sortByDesc_head_max _ a _ hmax

section

attribute [local semireducible] Rat.mul Rat.inv Rat.add Rat.sub

set_option maxRecDepth 100000 in
/-- Concrete instance of `findRelevantFiles_ranking`: with no keywords at
all, every selected file of `rankStore` has score at most `1`, and the
top-ranked file is the directly mentioned one. -/
theorem findRelevantFiles_ranking_witness :
    ∃ f0, (findRelevantFiles rankStore
        { targetFiles := ["auth.txt"], keywords := [] } 5).head? = some f0 ∧
      f0.reason = "directly_mentioned" ∧ f0.relevanceScore = 1 :=
  (findRelevantFiles_ranking rankStore
      { targetFiles := ["auth.txt"], keywords := [] } 5).2.2
    (by decide) (by decide)

end

/-! ## C1 -/

/-- The store key a recorded change acts on. -/
def changeKey (c : Change) : String := normalizePath c.filePath

/-- The content a change leaves at its key when (re-)applied. -/
def forwardContent (c : Change) : Option String :=
  if c.type = "delete" then none else c.newContent

/-- The content reverting a change leaves at its key. -/
def backContent (c : Change) : Option String :=
  if c.type = "create" then none else c.oldContent

/-- The shape of every change the mutating file tools record. -/
def WFChange (c : Change) : Prop :=
  (c.type = "create" ∧ c.newContent.isSome = true) ∨
  (c.type = "edit" ∧ c.oldContent.isSome = true ∧ c.newContent.isSome = true) ∨
  (c.type = "delete" ∧ c.oldContent.isSome = true)

/-- Per-key agreement between the store and an undo stack: `v` is the
current content at key `k`, the newest stack change touching `k` records
`v` as its forward content, and each deeper touch of `k` continues the
chain from the reverted content of the touch above it. -/
def keyInv (k : String) : Option String → List Change → Prop
  | _, [] => True
  | v, c :: cs =>
    if changeKey c = k then
      v = forwardContent c ∧ keyInv k (backContent c) cs
    else keyInv k v cs

/-- The invariant the file tools maintain between the store and the
tracker's undo stack. -/
def TrackInv (s : SysState) : Prop :=
  (∀ c ∈ s.tracker.undoStack, WFChange c) ∧
  (∀ k, keyInv k (readKey s.fs k) s.tracker.undoStack) ∧
  NodupKeys s.fs

theorem keyInv_take (k : String) :
    ∀ (l : List Change) (v : Option String) (m : Nat),
      keyInv k v l → keyInv k v (l.take m) := by
  intro l
  induction l with
  | nil => intro v m _; simp [keyInv]
  | cons c cs ih =>
    intro v m h
    cases m with
    | zero => simp [keyInv]
    | succ m =>
      rw [List.take_succ_cons]
      unfold keyInv at h ⊢
      by_cases hc : changeKey c = k
      · rw [if_pos hc] at h ⊢
        exact ⟨h.1, ih _ _ h.2⟩
      · rw [if_neg hc] at h ⊢
        exact ih _ _ h

/-- A well-formed change always reverts, and the revert rewrites exactly
its own key to `backContent`. -/
theorem revertChange_spec (e : String → String → List SymbolInfo) (fs : VFS)
    (c : Change) (hw : WFChange c) (hnd : NodupKeys fs) :
    ∃ g, revertChange e fs c = some g ∧ NodupKeys g ∧
      ∀ k, readKey g k =
        if changeKey c = k then backContent c else readKey fs k := by
  obtain ⟨cty, cfp, cold, cnew⟩ := c
  rcases hw with ⟨hty, hnew⟩ | ⟨hty, hold, hnew⟩ | ⟨hty, hold⟩
  · have hty' : cty = "create" := hty
    subst hty'
    refine ⟨(fs.deleteFile cfp).1, rfl, nodup_deleteFile fs cfp hnd, ?_⟩
    intro k
    by_cases hk : changeKey ⟨"create", cfp, cold, cnew⟩ = k
    · rw [if_pos hk, ← hk]
      show readKey (fs.deleteFile cfp).1 (normalizePath cfp) = backContent _
      rw [readKey_deleteFile_self fs cfp hnd]
      rfl
    · rw [if_neg hk]
      exact readKey_deleteFile_ne fs cfp k fun h => hk h.symm
  · have hty' : cty = "edit" := hty
    subst hty'
    obtain ⟨o, ho⟩ := Option.isSome_iff_exists.mp hold
    subst ho
    refine ⟨fs.updateFile e cfp o, rfl, nodup_updateFile e fs cfp o hnd, ?_⟩
    intro k
    by_cases hk : changeKey ⟨"edit", cfp, some o, cnew⟩ = k
    · rw [if_pos hk, ← hk]
      show readKey (fs.updateFile e cfp o) (normalizePath cfp) = backContent _
      rw [readKey_updateFile_self]
      rfl
    · rw [if_neg hk]
      exact readKey_updateFile_ne e fs cfp o k fun h => hk h.symm
  · have hty' : cty = "delete" := hty
    subst hty'
    obtain ⟨o, ho⟩ := Option.isSome_iff_exists.mp hold
    subst ho
    refine ⟨fs.addFile e cfp o "file", rfl, nodup_addFile e fs cfp o "file" hnd, ?_⟩
    intro k
    by_cases hk : changeKey ⟨"delete", cfp, some o, cnew⟩ = k
    · rw [if_pos hk, ← hk]
      show readKey (fs.addFile e cfp o "file") (normalizePath cfp) = backContent _
      rw [readKey_addFile_self]
      rfl
    · rw [if_neg hk]
      exact readKey_addFile_ne e fs cfp o "file" k fun h => hk h.symm

/-- A well-formed change always re-applies, and the application rewrites
exactly its own key to `forwardContent`. -/
theorem applyChange_spec (e : String → String → List SymbolInfo) (fs : VFS)
    (c : Change) (hw : WFChange c) (hnd : NodupKeys fs) :
    ∃ g, applyChange e fs c = some g ∧ NodupKeys g ∧
      ∀ k, readKey g k =
        if changeKey c = k then forwardContent c else readKey fs k := by
  obtain ⟨cty, cfp, cold, cnew⟩ := c
  rcases hw with ⟨hty, hnew⟩ | ⟨hty, hold, hnew⟩ | ⟨hty, hold⟩
  · have hty' : cty = "create" := hty
    subst hty'
    obtain ⟨nc, hn⟩ := Option.isSome_iff_exists.mp hnew
    subst hn
    refine ⟨fs.addFile e cfp nc "file", rfl, nodup_addFile e fs cfp nc "file" hnd, ?_⟩
    intro k
    by_cases hk : changeKey ⟨"create", cfp, cold, some nc⟩ = k
    · rw [if_pos hk, ← hk]
      show readKey (fs.addFile e cfp nc "file") (normalizePath cfp) = forwardContent _
      rw [readKey_addFile_self]
      rfl
    · rw [if_neg hk]
      exact readKey_addFile_ne e fs cfp nc "file" k fun h => hk h.symm
  · have hty' : cty = "edit" := hty
    subst hty'
    obtain ⟨nc, hn⟩ := Option.isSome_iff_exists.mp hnew
    subst hn
    refine ⟨fs.updateFile e cfp nc, rfl, nodup_updateFile e fs cfp nc hnd, ?_⟩
    intro k
    by_cases hk : changeKey ⟨"edit", cfp, cold, some nc⟩ = k
    · rw [if_pos hk, ← hk]
      show readKey (fs.updateFile e cfp nc) (normalizePath cfp) = forwardContent _
      rw [readKey_updateFile_self]
      rfl
    · rw [if_neg hk]
      exact readKey_updateFile_ne e fs cfp nc k fun h => hk h.symm
  · have hty' : cty = "delete" := hty
    subst hty'
    refine ⟨(fs.deleteFile cfp).1, rfl, nodup_deleteFile fs cfp hnd, ?_⟩
    intro k
    by_cases hk : changeKey ⟨"delete", cfp, cold, cnew⟩ = k
    · rw [if_pos hk, ← hk]
      show readKey (fs.deleteFile cfp).1 (normalizePath cfp) = forwardContent _
      rw [readKey_deleteFile_self fs cfp hnd]
      rfl
    · rw [if_neg hk]
      exact readKey_deleteFile_ne fs cfp k fun h => hk h.symm

/-- Recording a change whose forward content matches the new store state
and whose backward content matches the old one preserves the tracker
invariant (including through the `maxHistorySize` eviction of the oldest
stack entries). -/
theorem trackInv_record (fs fs2 : VFS) (tr : Tracker) (c : Change)
    (hI : TrackInv ⟨fs, tr⟩) (hw : WFChange c)
    (hself : readKey fs2 (changeKey c) = forwardContent c)
    (hback : backContent c = readKey fs (changeKey c))
    (hframe : ∀ k, ¬ changeKey c = k → readKey fs2 k = readKey fs k)
    (hnd : NodupKeys fs2) :
    TrackInv ⟨fs2, tr.recordChange c⟩ := by
  obtain ⟨hwf, hkey, _⟩ := hI
  refine ⟨?_, ?_, hnd⟩
  · intro x hx
    have hx2 : x ∈ (c :: tr.undoStack).take maxHistorySize := hx
    rcases List.mem_cons.mp (List.take_subset _ _ hx2) with rfl | hmem
    · exact hw
    · exact hwf x hmem
  · intro k
    show keyInv k (readKey fs2 k) ((c :: tr.undoStack).take maxHistorySize)
    rw [show maxHistorySize = 99 + 1 from rfl, List.take_succ_cons]
    unfold keyInv
    by_cases hk : changeKey c = k
    · rw [if_pos hk]
      refine ⟨by rw [← hk]; exact hself, ?_⟩
      rw [hback, hk]
      exact keyInv_take k _ _ _ (hkey k)
    · rw [if_neg hk]
      rw [hframe k hk]
      exact keyInv_take k _ _ _ (hkey k)

theorem except_bind_ok {ε α β : Type} (a : α) (f : α → Except ε β) :
    ((Except.ok a : Except ε α) >>= f) = f a := rfl

theorem except_bind_error {ε α β : Type} (m : ε) (f : α → Except ε β) :
    ((Except.error m : Except ε α) >>= f) = Except.error m := rfl

/-- Peeling the last redo step off `redoN`. -/
theorem redoN_add_one (e : String → String → List SymbolInfo) (n : Nat) :
    ∀ s : SysState, redoN e (n + 1) s =
      match redoN e n s with
      | .error m => .error m
      | .ok t => (redoStep e t).map Prod.snd := by
  induction n with
  | zero =>
    intro s
    cases h : redoStep e s with
    | error m => simp [redoN, h, except_bind_error, Except.map]
    | ok p =>
      obtain ⟨b, s1⟩ := p
      simp [redoN, h, except_bind_ok, Except.map]
  | succ n ih =>
    intro s
    show redoN e (n + 1 + 1) s = _
    cases h : redoStep e s with
    | error m =>
      have h1 : redoN e (n + 1 + 1) s = .error m := by
        simp [redoN, h, except_bind_error]
      have h2 : redoN e (n + 1) s = .error m := by
        simp [redoN, h, except_bind_error]
      rw [h1, h2]
    | ok p =>
      obtain ⟨b, s1⟩ := p
      have h1 : redoN e (n + 1 + 1) s = redoN e (n + 1) s1 := by
        simp [redoN, h, except_bind_ok]
      have h2 : redoN e (n + 1) s = redoN e n s1 := by
        simp [redoN, h, except_bind_ok]
      rw [h1, ih s1, h2]

/-- The undo/redo round trip over a tracker state satisfying `TrackInv`:
undoing `n` recorded changes succeeds and moves them onto the redo stack;
redoing them succeeds, restores both stacks exactly, and restores the
store content at every key. -/
theorem undo_redo_spec (e : String → String → List SymbolInfo) :
    ∀ (n : Nat) (s : SysState), TrackInv s → n ≤ s.tracker.undoStack.length →
    ∃ g fs2,
      undoN e n s = .ok ⟨g, ⟨s.tracker.changes, s.tracker.undoStack.drop n,
        (s.tracker.undoStack.take n).reverse ++ s.tracker.redoStack⟩⟩ ∧
      redoN e n ⟨g, ⟨s.tracker.changes, s.tracker.undoStack.drop n,
        (s.tracker.undoStack.take n).reverse ++ s.tracker.redoStack⟩⟩ =
        .ok ⟨fs2, s.tracker⟩ ∧
      (∀ k, readKey fs2 k = readKey s.fs k) ∧ NodupKeys fs2 := by
  intro n
  induction n with
  | zero =>
    intro s hI _
    exact ⟨s.fs, s.fs, rfl, rfl, fun _ => rfl, hI.2.2⟩
  | succ n ih =>
    intro s hI hlen
    obtain ⟨fs, chg, stk, rdo⟩ := s
    obtain ⟨hwf, hkey, hnd⟩ := hI
    cases stk with
    | nil => simp at hlen
    | cons c1 rest =>
      have hw1 : WFChange c1 := hwf c1 (List.mem_cons_self _ _)
      obtain ⟨g1, hrev, hnd1, hchar⟩ := revertChange_spec e fs c1 hw1 hnd
      have hI1 : TrackInv ⟨g1, ⟨chg, rest, c1 :: rdo⟩⟩ := by
        refine ⟨fun x hx => hwf x (List.mem_cons_of_mem _ hx), ?_, hnd1⟩
        intro k
        have h0 : keyInv k (readKey fs k) (c1 :: rest) := hkey k
        show keyInv k (readKey g1 k) rest
        unfold keyInv at h0
        by_cases hk : changeKey c1 = k
        · rw [if_pos hk] at h0
          have hg : readKey g1 k = backContent c1 := by rw [hchar k, if_pos hk]
          rw [hg]
          exact h0.2
        · rw [if_neg hk] at h0
          have hg : readKey g1 k = readKey fs k := by rw [hchar k, if_neg hk]
          rw [hg]
          exact h0
      have hlen1 : n ≤ rest.length := by
        have h1 : n + 1 ≤ rest.length + 1 := by simpa using hlen
        exact Nat.le_of_succ_le_succ h1
      obtain ⟨g, fs2, hu, hr, hk2, hnd2⟩ := ih ⟨g1, ⟨chg, rest, c1 :: rdo⟩⟩ hI1 hlen1
      have hu' : undoN e n ⟨g1, ⟨chg, rest, c1 :: rdo⟩⟩ =
          .ok ⟨g, ⟨chg, rest.drop n, (rest.take n).reverse ++ (c1 :: rdo)⟩⟩ := hu
      have hr' : redoN e n ⟨g, ⟨chg, rest.drop n, (rest.take n).reverse ++ (c1 :: rdo)⟩⟩ =
          .ok ⟨fs2, ⟨chg, rest, c1 :: rdo⟩⟩ := hr
      have hk2' : ∀ k, readKey fs2 k = readKey g1 k := hk2
      obtain ⟨h2, happ, hnd3, hchar2⟩ := applyChange_spec e fs2 c1 hw1 hnd2
      have hstep : undoN e (n + 1) ⟨fs, ⟨chg, c1 :: rest, rdo⟩⟩ =
          undoN e n ⟨g1, ⟨chg, rest, c1 :: rdo⟩⟩ := by
        simp [undoN, undoStep, hrev, except_bind_ok]
      have hlist : ((c1 :: rest).take (n + 1)).reverse ++ rdo =
          (rest.take n).reverse ++ (c1 :: rdo) := by
        rw [List.take_succ_cons, List.reverse_cons, List.append_assoc,
          List.singleton_append]
      refine ⟨g, h2, ?_, ?_, ?_, hnd3⟩
      · rw [List.drop_succ_cons, hlist, hstep, hu']
      · rw [List.drop_succ_cons, hlist, redoN_add_one e n, hr']
        show (redoStep e ⟨fs2, ⟨chg, rest, c1 :: rdo⟩⟩).map Prod.snd =
          Except.ok ⟨h2, ⟨chg, c1 :: rest, rdo⟩⟩
        simp [redoStep, happ, Except.map]
      · intro k
        rw [hchar2 k]
        by_cases hk : changeKey c1 = k
        · rw [if_pos hk]
          have h0 : keyInv k (readKey fs k) (c1 :: rest) := hkey k
          unfold keyInv at h0
          rw [if_pos hk] at h0
          exact h0.1.symm
        · rw [if_neg hk, hk2' k, hchar k, if_neg hk]

theorem trackInv_create (e : String → String → List SymbolInfo) (fs : VFS)
    (tr : Tracker) (p fc : String) (hI : TrackInv ⟨fs, tr⟩)
    (habs : readKey fs (normalizePath p) = none) :
    TrackInv ⟨fs.addFile e p fc "file",
      tr.recordChange ⟨"create", p, none, some fc⟩⟩ := by
  refine trackInv_record fs _ tr _ hI (Or.inl ⟨rfl, rfl⟩) ?_ ?_ ?_
    (nodup_addFile e fs p fc "file" hI.2.2)
  · show readKey (fs.addFile e p fc "file") (normalizePath p) = forwardContent _
    rw [readKey_addFile_self]
    rfl
  · show backContent _ = readKey fs (normalizePath p)
    rw [habs]
    rfl
  · intro k hk
    exact readKey_addFile_ne e fs p fc "file" k fun hh => hk hh.symm

theorem trackInv_edit (e : String → String → List SymbolInfo) (fs : VFS)
    (tr : Tracker) (p nc oc : String) (hI : TrackInv ⟨fs, tr⟩)
    (hold : readKey fs (normalizePath p) = some oc) :
    TrackInv ⟨fs.updateFile e p nc,
      tr.recordChange ⟨"edit", p, some oc, some nc⟩⟩ := by
  refine trackInv_record fs _ tr _ hI (Or.inr (Or.inl ⟨rfl, rfl, rfl⟩)) ?_ ?_ ?_
    (nodup_updateFile e fs p nc hI.2.2)
  · show readKey (fs.updateFile e p nc) (normalizePath p) = forwardContent _
    rw [readKey_updateFile_self]
    rfl
  · show backContent _ = readKey fs (normalizePath p)
    rw [hold]
    rfl
  · intro k hk
    exact readKey_updateFile_ne e fs p nc k fun hh => hk hh.symm

theorem trackInv_createWrite (e : String → String → List SymbolInfo) (fs : VFS)
    (tr : Tracker) (p nc : String) (hI : TrackInv ⟨fs, tr⟩)
    (habs : readKey fs (normalizePath p) = none) :
    TrackInv ⟨fs.updateFile e p nc,
      tr.recordChange ⟨"create", p, none, some nc⟩⟩ := by
  refine trackInv_record fs _ tr _ hI (Or.inl ⟨rfl, rfl⟩) ?_ ?_ ?_
    (nodup_updateFile e fs p nc hI.2.2)
  · show readKey (fs.updateFile e p nc) (normalizePath p) = forwardContent _
    rw [readKey_updateFile_self]
    rfl
  · show backContent _ = readKey fs (normalizePath p)
    rw [habs]
    rfl
  · intro k hk
    exact readKey_updateFile_ne e fs p nc k fun hh => hk hh.symm

theorem trackInv_delete (fs : VFS) (tr : Tracker) (p oc : String)
    (hI : TrackInv ⟨fs, tr⟩)
    (hold : readKey fs (normalizePath p) = some oc) :
    TrackInv ⟨(fs.deleteFile p).1,
      tr.recordChange ⟨"delete", p, some oc, none⟩⟩ := by
  refine trackInv_record fs _ tr _ hI (Or.inr (Or.inr ⟨rfl, rfl⟩)) ?_ ?_ ?_
    (nodup_deleteFile fs p hI.2.2)
  · show readKey (fs.deleteFile p).1 (normalizePath p) = forwardContent _
    rw [readKey_deleteFile_self fs p hI.2.2]
    rfl
  · show backContent _ = readKey fs (normalizePath p)
    rw [hold]
    rfl
  · intro k hk
    exact readKey_deleteFile_ne fs p k fun hh => hk hh.symm

theorem createFileExecute_trackInv (e : String → String → List SymbolInfo)
    (s s2 : SysState) (p c ft : String) (hI : TrackInv s)
    (h : createFileExecute e s p c ft = .ok s2) : TrackInv s2 := by
  obtain ⟨fs, tr⟩ := s
  cases hg : VFS.getFile fs p with
  | some f =>
    simp only [createFileExecute, hg] at h
    exact Except.noConfusion h
  | none =>
    have habs : readKey fs (normalizePath p) = none := by
      show (VFS.getFile fs p).map FileEntry.content = none
      rw [hg]
      rfl
    simp only [createFileExecute, hg] at h
    injection h with h
    subst h
    exact trackInv_create e fs tr p _ hI habs

theorem writeFileExecute_trackInv (e : String → String → List SymbolInfo)
    (s s2 : SysState) (p c : String) (hI : TrackInv s)
    (h : writeFileExecute e s p c = .ok s2) : TrackInv s2 := by
  obtain ⟨fs, tr⟩ := s
  cases hg : VFS.getFile fs p with
  | some f =>
    have hold : readKey fs (normalizePath p) = some f.content := by
      show (VFS.getFile fs p).map FileEntry.content = some f.content
      rw [hg]
      rfl
    simp only [writeFileExecute, hg, Option.map_some, Option.isSome_some,
      if_true] at h
    injection h with h
    subst h
    exact trackInv_edit e fs tr p c f.content hI hold
  | none =>
    have habs : readKey fs (normalizePath p) = none := by
      show (VFS.getFile fs p).map FileEntry.content = none
      rw [hg]
      rfl
    simp only [writeFileExecute, hg, Option.map_none, Option.isSome_none,
      Bool.false_eq_true, if_false] at h
    injection h with h
    subst h
    exact trackInv_createWrite e fs tr p c hI habs

theorem editFileExecute_trackInv (e : String → String → List SymbolInfo)
    (s s2 : SysState) (p oc nc : String) (ra : Bool) (hI : TrackInv s)
    (h : editFileExecute e s p oc nc ra = .ok s2) : TrackInv s2 := by
  obtain ⟨fs, tr⟩ := s
  cases hg : VFS.getFile fs p with
  | none =>
    simp only [editFileExecute, hg] at h
    exact Except.noConfusion h
  | some f =>
    have hold : readKey fs (normalizePath p) = some f.content := by
      show (VFS.getFile fs p).map FileEntry.content = some f.content
      rw [hg]
      rfl
    simp only [editFileExecute, hg] at h
    split at h
    · exact Except.noConfusion h
    · split at h
      · exact Except.noConfusion h
      · split at h
        · exact Except.noConfusion h
        · injection h with h
          subst h
          exact trackInv_edit e fs tr p _ f.content hI hold

theorem deleteFileExecute_trackInv (s s2 : SysState) (p : String)
    (hI : TrackInv s) (h : deleteFileExecute s p true = .ok s2) : TrackInv s2 := by
  obtain ⟨fs, tr⟩ := s
  cases hg : VFS.getFile fs p with
  | none =>
    simp only [deleteFileExecute, hg, not_true, if_false] at h
    exact Except.noConfusion h
  | some f =>
    have hg' : lookupEntry fs.files (normalizePath p) = some f := hg
    have hold : readKey fs (normalizePath p) = some f.content := by
      show (VFS.getFile fs p).map FileEntry.content = some f.content
      rw [hg]
      rfl
    have hd : fs.deleteFile p =
        ({ fs with files := removeEntry fs.files (normalizePath p) }, true) := by
      simp [VFS.deleteFile, hg']
    simp only [deleteFileExecute, hg, hd] at h
    split at h
    · exact Except.noConfusion h
    · split at h
      · exact Except.noConfusion h
      · injection h with h
        subst h
        have hd1 : (fs.deleteFile p).1 =
            { fs with files := removeEntry fs.files (normalizePath p) } := by
          rw [hd]
        exact hd1 ▸ trackInv_delete fs tr p f.content hI hold

theorem runOp_trackInv (e : String → String → List SymbolInfo)
    (s s2 : SysState) (op : ToolOp) (hI : TrackInv s)
    (h : runOp e s op = .ok s2) : TrackInv s2 := by
  cases op with
  | create p c ft => exact createFileExecute_trackInv e s s2 p c ft hI h
  | write p c => exact writeFileExecute_trackInv e s s2 p c hI h
  | edit p oc nc ra => exact editFileExecute_trackInv e s s2 p oc nc ra hI h
  | delete p => exact deleteFileExecute_trackInv s s2 p hI h

theorem runOps_trackInv (e : String → String → List SymbolInfo) :
    ∀ (ops : List ToolOp) (s s2 : SysState), TrackInv s →
      runOps e s ops = .ok s2 → TrackInv s2 := by
  intro ops
  induction ops with
  | nil =>
    intro s s2 hI h
    injection h with h
    subst h
    exact hI
  | cons op ops ih =>
    intro s s2 hI h
    cases hop : runOp e s op with
    | error m =>
      simp only [runOps, hop, except_bind_error] at h
      exact Except.noConfusion h
    | ok s1 =>
      simp only [runOps, hop, except_bind_ok] at h
      exact ih s1 s2 (runOp_trackInv e s s1 op hI hop) h

theorem trackInv_init (fs0 : VFS) (h : NodupKeys fs0) :
    TrackInv ⟨fs0, Tracker.empty⟩ :=
  ⟨fun _ hc => absurd hc (List.not_mem_nil _), fun _ => trivial, h⟩

set_option maxRecDepth 8000 in
/-- **C1.**  Undo/redo inverse law: for every sequence of Create/Edit/Delete
changes recorded by the mutating file tools into the `ChangeTracker`
(starting from an empty tracker over a duplicate-free store), and every `n`
not exceeding the undo-stack length, `undo()` called `n` times followed by
`redo()` called `n` times succeeds and restores the file system to exactly
the file-content state it had after the original sequence, content for
content at every path, with the tracker stacks also restored exactly. -/
theorem undo_redo_roundtrip (e : String → String → List SymbolInfo)
    (fs0 : VFS) (ops : List ToolOp) (s : SysState) (n : Nat)
    (hnd : NodupKeys fs0)
    (hrun : runOps e ⟨fs0, Tracker.empty⟩ ops = .ok s)
    (hn : n ≤ s.tracker.undoStack.length) :
    ∃ s1 s2, undoN e n s = .ok s1 ∧ redoN e n s1 = .ok s2 ∧
      s2.tracker = s.tracker ∧
      ∀ p, readContent s2.fs p = readContent s.fs p := by
  have hI : TrackInv s :=
    runOps_trackInv e ops ⟨fs0, Tracker.empty⟩ s (trackInv_init fs0 hnd) hrun
  obtain ⟨g, fs2, hu, hr, hk, _⟩ := undo_redo_spec e n s hI hn
  refine ⟨_, ⟨fs2, s.tracker⟩, hu, hr, rfl, ?_⟩
  intro p
  rw [readContent_eq_readKey, readContent_eq_readKey]
  exact hk (normalizePath p)

/-- A concrete tool-mediated change sequence: create, overwrite, delete and
re-create, leaving four changes on the undo stack. -/
def demoOps : List ToolOp :=
  [.create "a.txt" "hi" "text", .write "a.txt" "bye", .delete "a.txt",
   .create "b.txt" "z" "text"]

/-- The state the tools reach on `demoOps` from an empty store. -/
def demoState : SysState :=
  match runOps (fun _ _ => []) ⟨VFS.empty, Tracker.empty⟩ demoOps with
  | .ok s => s
  | .error _ => ⟨VFS.empty, Tracker.empty⟩

set_option maxRecDepth 8000 in
/-- Concrete instance of `undo_redo_roundtrip`: three undos followed by
three redos restore the store reached by `demoOps` content for content. -/
theorem undo_redo_roundtrip_witness :
    ∃ s1 s2, undoN (fun _ _ => []) 3 demoState = .ok s1 ∧
      redoN (fun _ _ => []) 3 s1 = .ok s2 ∧
      s2.tracker = demoState.tracker ∧
      ∀ p, readContent s2.fs p = readContent demoState.fs p :=
  undo_redo_roundtrip (fun _ _ => []) VFS.empty demoOps demoState 3
    (by decide : (VFS.empty.files.map Prod.fst).Nodup)
    (by decide) (by decide)
